import Mathlib

/-!
Verification of the image-convolution engine (imgproc): a shallow embedding of
`src/unnamed/part_001` (base.js: `Pixel`, `getPixelLocation`, `getPixel`) and
`src/unnamed/part_000` (convolution.js: `imgproc.convolution`), together with
theorems settling the specification's claims about it.

Modelling conventions:
- JavaScript numbers are modelled as exact integers (`ℤ`).  Every numeric value
  the claims exercise (pixel bytes, kernel weights, the accumulated sums) is an
  integer, and the single division in the algorithm is observed only through
  `Math.floor`, which on an exact quotient `a / b` (with `b ≠ 0`) is the
  mathematical floor, embedded as `jsFloorDiv` below.  Division by zero yields
  `+Infinity`, `-Infinity` or `NaN`; these flow into the clamped byte store and
  are modelled by the explicit value type `JVal`.
- A field read that yields a non-numeric value (reading `.r` from a bare number,
  or a channel that holds a non-number object) behaves as NaN in arithmetic;
  such channel values are modelled as `none : Option ℤ`.
- A JavaScript exception (indexing into `undefined`, reading a property of
  `undefined`) aborts the call; this is modelled with `Except String`, the
  string being the exception kind.  The `try`/`catch` in the accumulation loop
  only logs and rethrows, so it is observationally the bare exception.
- The function's write to the global `window.CONV_IMG_DATA` is modelled by an
  explicit environment record threaded in and out of `convolution`, and the
  in-place promotion of a static kernel array is modelled by returning the
  final state of the kernel source alongside the result.
- Only the `ImageData` branch of the source-type dispatch is embedded: the
  `CanvasRenderingContext2D` branch of the original code dereferences an
  undefined variable `ctx` and no claim exercises it.
-/

namespace imgproc

/-- A pixel: four channel values r, g, b, a.  A channel normally holds a number
(`some z`); `none` stands for a non-numeric channel value (undefined or an
object), which behaves as NaN in arithmetic. -/
structure Pixel where
  r : Option ℤ
  g : Option ℤ
  b : Option ℤ
  a : Option ℤ
deriving Repr, DecidableEq

/-- Zero-argument Pixel constructor: `new Pixel()` is rgba(0,0,0,255). -/
def Pixel.mk0 : Pixel :=
  ⟨some 0, some 0, some 0, some 255⟩

/-- One-argument Pixel constructor on a number: `new Pixel(n)` is rgba(n,n,n,255). -/
def Pixel.mk1 (n : ℤ) : Pixel :=
  ⟨some n, some n, some n, some 255⟩

/-- One-argument Pixel constructor on a non-number object: `new Pixel(p)` stores
the object itself into r, g and b (behaving as NaN in any later arithmetic) and
255 into the alpha channel. -/
def Pixel.mk1obj : Pixel :=
  ⟨none, none, none, some 255⟩

/-- The flat RGBA raster: `width`, `height` and the channel-byte array `data`
in the order R,G,B,A per pixel, row-major. -/
structure ImageData where
  width : ℕ
  height : ℕ
  data : List ℕ
deriving Repr, DecidableEq

/-- imgproc.getPixelLocation: index of the first byte of the pixel at (x, y),
`(y*width + x)*4`. -/
def getPixelLocation (img : ImageData) (x y : ℕ) : ℕ :=
  (y * img.width + x) * 4

/-- imgproc.getPixel: the Pixel read from the four bytes at the pixel location
of (x, y).  All uses in the engine are at in-bounds clamped coordinates, so the
reads are in range and the default of `getD` is never exercised. -/
def getPixel (img : ImageData) (x y : ℕ) : Pixel :=
  ⟨some (img.data.getD (getPixelLocation img x y) 0 : ℕ),
   some (img.data.getD (getPixelLocation img x y + 1) 0 : ℕ),
   some (img.data.getD (getPixelLocation img x y + 2) 0 : ℕ),
   some (img.data.getD (getPixelLocation img x y + 3) 0 : ℕ)⟩

/-- The neighborhood record built for each output coordinate: the clamped
bounding box, the center, and the sampled pixel grid. -/
structure Area where
  left : ℤ
  top : ℤ
  right : ℤ
  bottom : ℤ
  center : ℤ × ℤ
  pixels : List (List Pixel)

/-- Construction of the Area around center (x, y) with the given half size:
the window `[x-h, x+h] × [y-h, y+h]` clamped at the image edges, then the
row-major grid of pixels sampled inside the clamped box (`for ay=top..bottom`,
`for ax=left..right`). -/
def mkArea (img : ImageData) (x y half : ℕ) : Area :=
  let left : ℤ := if (x : ℤ) - half < 0 then 0 else (x : ℤ) - half
  let top : ℤ := if (y : ℤ) - half < 0 then 0 else (y : ℤ) - half
  let right : ℤ := if (x : ℤ) + half ≥ img.width then (img.width : ℤ) - 1 else (x : ℤ) + half
  let bottom : ℤ := if (y : ℤ) + half ≥ img.height then (img.height : ℤ) - 1 else (y : ℤ) + half
  { left := left, top := top, right := right, bottom := bottom,
    center := ((x : ℤ), (y : ℤ)),
    pixels := (List.range (bottom - top + 1).toNat).map fun (j : ℕ) =>
      (List.range (right - left + 1).toNat).map fun (i : ℕ) =>
        getPixel img (left + (i : ℤ)).toNat (top + (j : ℤ)).toNat }

/-- A kernel cell as supplied by the caller: a bare number or a Pixel weight. -/
inductive Cell where
  | num (n : ℤ)
  | px (p : Pixel)
deriving Repr, DecidableEq

/-- A kernel grid: rows of cells. -/
abbrev Grid := List (List Cell)

/-- Reading the `.r` property of a kernel cell: a Pixel gives its channel, a
bare number gives `undefined`, which behaves as NaN in arithmetic. -/
def Cell.chanR : Cell → Option ℤ
  | .px p => p.r
  | .num _ => none

/-- Reading the `.g` property of a kernel cell. -/
def Cell.chanG : Cell → Option ℤ
  | .px p => p.g
  | .num _ => none

/-- Reading the `.b` property of a kernel cell. -/
def Cell.chanB : Cell → Option ℤ
  | .px p => p.b
  | .num _ => none

/-- The kernel source argument: a static grid, or a generator function from the
Area to a grid. -/
inductive KernelSource where
  | static (g : Grid)
  | gen (f : Area → Grid)

/-- The process-wide default kernel size, `imgproc.defaults.kernel_size = 5`. -/
def defaults_kernel_size : ℕ := 5

/-- Resolution of the effective kernel size:
`size = size || (kernel_source.constructor === Array ? kernel_source.length
: imgproc.defaults.kernel_size)`.  An absent argument (and the falsy 0) falls
back to the static grid's length for an array source and to the process-wide
default for a generator. -/
def effSize (ks : KernelSource) (size? : Option ℕ) : ℕ :=
  let dflt := match ks with
    | .static g => g.length
    | .gen _ => defaults_kernel_size
  match size? with
  | some s => if s = 0 then dflt else s
  | none => dflt

/-- Promotion of one kernel cell by the one-argument Pixel constructor,
`new imgproc.Pixel(kernel[i][j])`: a bare number n becomes rgba(n,n,n,255);
a cell that is already a Pixel object becomes a Pixel whose color channels hold
that object (non-numeric, NaN in arithmetic) and whose alpha is 255. -/
def promoteCell : Cell → Cell
  | .num n => .px (Pixel.mk1 n)
  | .px _ => .px Pixel.mk1obj

/-- The scalar-promotion step: `if (kernel[0][0].constructor === Number)` then
every cell is replaced by `new Pixel(cell)` in place.  Reading `kernel[0][0]`
of an empty grid or an empty first row dereferences `undefined` and throws. -/
def promoteGrid (g : Grid) : Except String Grid :=
  match g.head? with
  | none => .error "TypeError"
  | some row =>
    match row.head? with
    | none => .error "TypeError"
    | some (.num _) => .ok (g.map fun r => r.map promoteCell)
    | some (.px _) => .ok g

/-- Kernel resolution at one output coordinate: a generator is invoked with the
Area, a static grid is used directly; then the scalar-promotion step runs on
the resulting array.  For a static source the promotion writes back into the
caller's array, so the updated kernel source is returned alongside the grid. -/
def resolveKernel (ks : KernelSource) (area : Area) : Except String (Grid × KernelSource) :=
  match ks with
  | .static g =>
    match promoteGrid g with
    | .error e => .error e
    | .ok g2 => .ok (g2, .static g2)
  | .gen f =>
    match promoteGrid (f area) with
    | .error e => .error e
    | .ok g2 => .ok (g2, .gen f)

/-- Addition of possibly non-numeric values: NaN propagates. -/
def oadd (x y : Option ℤ) : Option ℤ :=
  match x, y with
  | some a, some b => some (a + b)
  | _, _ => none

/-- Multiplication of possibly non-numeric values: NaN propagates. -/
def omul (x y : Option ℤ) : Option ℤ :=
  match x, y with
  | some a, some b => some (a * b)
  | _, _ => none

/-- One iteration of the accumulation loop body on the running pair
(area_sum, kernel_sum): each color channel of the area pixel is multiplied by
the corresponding channel of the kernel cell and added to area_sum, and the
kernel cell's channel is added to kernel_sum.  Alpha is not touched. -/
def accumStep (st : Pixel × Pixel) (ap : Pixel) (kc : Cell) : Pixel × Pixel :=
  (⟨oadd st.1.r (omul ap.r kc.chanR),
    oadd st.1.g (omul ap.g kc.chanG),
    oadd st.1.b (omul ap.b kc.chanB), st.1.a⟩,
   ⟨oadd st.2.r kc.chanR,
    oadd st.2.g kc.chanG,
    oadd st.2.b kc.chanB, st.2.a⟩)

/-- The inner loop `for (i=0; i<area.pixels[0].length; i++)` over one row:
`ni` is the loop bound, the row of area pixels and the kernel row are consumed
in step; indexing past either row dereferences `undefined` and throws when the
`.r` property is read. -/
def accumCols : ℕ → List Pixel → List Cell → Pixel × Pixel → Except String (Pixel × Pixel)
  | 0, _, _, st => .ok st
  | _ + 1, [], _, _ => .error "TypeError"
  | _ + 1, _ :: _, [], _ => .error "TypeError"
  | n + 1, ap :: aps, kc :: kcs, st => accumCols n aps kcs (accumStep st ap kc)

/-- The outer loop `for (j=0; j<area.pixels.length; j++)`: each area row is
processed against the kernel row of the same index.  When the kernel has no
row at that index, `kernel[j][i]` throws as soon as the inner loop runs at
all (`ni > 0`). -/
def accumRows : ℕ → List (List Pixel) → Grid → Pixel × Pixel → Except String (Pixel × Pixel)
  | _, [], _, st => .ok st
  | ni, ra :: ras, kr :: krs, st =>
    match accumCols ni ra kr st with
    | .error e => .error e
    | .ok st2 => accumRows ni ras krs st2
  | ni, _ :: ras, [], st =>
    if ni = 0 then accumRows ni ras [] st else .error "TypeError"

/-- The full accumulation over the area's pixel grid with the resolved kernel,
starting from `area_sum = new Pixel()` and `kernel_sum = new Pixel()`.  The
inner loop bound is the length of the first area row. -/
def accumAll (ap : List (List Pixel)) (k : Grid) : Except String (Pixel × Pixel) :=
  accumRows (match ap.head? with | some r => r.length | none => 0) ap k (Pixel.mk0, Pixel.mk0)

/-- The value `Math.floor(q)` of a division result: an exact finite value, or
one of the special values +Infinity, -Infinity, NaN produced by a zero
denominator. -/
inductive JVal where
  | fin (z : ℤ)
  | posInf
  | negInf
  | nan
deriving Repr, DecidableEq

/-- Floor division of exact integers: `Math.floor(a / b)` for `b ≠ 0` is the
floor of the exact rational quotient.  For a nonnegative divisor this is
Lean's Euclidean division; for a negative divisor both operands are negated
first.  The lemma `jsFloorDiv_eq_floor` below proves this definition equal to
the mathematical floor of the quotient. -/
def jsFloorDiv (a b : ℤ) : ℤ :=
  if 0 ≤ b then a / b else (-a) / (-b)

/-- One output channel, `Math.floor(area_sum.c / kernel_sum.c)`: a zero
denominator yields +Infinity, -Infinity or NaN according to the sign of the
numerator; a non-numeric operand yields NaN; otherwise the floored exact
quotient. -/
def floorAvg (s k : Option ℤ) : JVal :=
  match s, k with
  | some a, some b =>
    if b = 0 then (if 0 < a then .posInf else if a < 0 then .negInf else .nan)
    else .fin (jsFloorDiv a b)
  | _, _ => .nan

/-- Storing a value into a `Uint8ClampedArray` slot: finite values are clamped
to [0, 255] (the stored values are already integral, being results of
`Math.floor`), +Infinity clamps to 255, -Infinity and NaN store 0. -/
def clampByte : JVal → ℕ
  | .fin z => if z < 0 then 0 else if 255 < z then 255 else z.toNat
  | .posInf => 255
  | .negInf => 0
  | .nan => 0

/-- Writing the result pixel into the output byte array at the pixel location:
the three color channels followed by the literal alpha 255. -/
def writePixel (d : List ℕ) (loc r g b : ℕ) : List ℕ :=
  (((d.set loc r).set (loc + 1) g).set (loc + 2) b).set (loc + 3) 255

/-- The computation of one output pixel at (x, y): build the clamped Area,
resolve (and possibly promote) the kernel, accumulate, and divide each channel
sum by its kernel-weight sum, flooring.  Returns the three stored color bytes
and the updated kernel-source state (also updated when a later step throws). -/
def convolvePixelStep (img : ImageData) (ks : KernelSource) (half x y : ℕ) :
    Except String (ℕ × ℕ × ℕ) × KernelSource :=
  let area := mkArea img x y half
  match resolveKernel ks area with
  | .error e => (.error e, ks)
  | .ok (kernel, ks2) =>
    match accumAll area.pixels kernel with
    | .error e => (.error e, ks2)
    | .ok (asum, ksum) =>
      (.ok (clampByte (floorAvg asum.r ksum.r),
            clampByte (floorAvg asum.g ksum.g),
            clampByte (floorAvg asum.b ksum.b)), ks2)

/-- The scan order of the double pixel loop: y outer from 0 to height-1, x
inner from 0 to width-1. -/
def coords (w h : ℕ) : List (ℕ × ℕ) :=
  (List.range h).flatMap fun y => (List.range w).map fun x => (x, y)

/-- The double pixel loop: each coordinate's result pixel is written into the
output byte array at its pixel location; an exception aborts the loop with the
kernel-source state it had reached. -/
def convGo (img : ImageData) (half : ℕ) :
    List (ℕ × ℕ) → List ℕ → KernelSource → Except String (List ℕ) × KernelSource
  | [], d, ks => (.ok d, ks)
  | (x, y) :: rest, d, ks =>
    match convolvePixelStep img ks half x y with
    | (.error e, ks2) => (.error e, ks2)
    | (.ok (r, g, b), ks2) =>
      convGo img half rest (writePixel d (getPixelLocation img x y) r g b) ks2

/-- The environment of globals the function touches: `window.CONV_IMG_DATA`. -/
structure Env where
  CONV_IMG_DATA : Option ImageData
deriving Repr, DecidableEq

/-- imgproc.convolution (the `ImageData` source branch): stores the input into
the global `CONV_IMG_DATA`, allocates a zero-filled output of the same
dimensions, resolves the effective kernel size, runs the double pixel loop,
and returns the output raster.  The triple returned is (result, final state of
the caller's kernel source, final environment). -/
def convolution (source : ImageData) (kernel_source : KernelSource) (size? : Option ℕ)
    (env : Env) : Except String ImageData × KernelSource × Env :=
  let env2 : Env := { env with CONV_IMG_DATA := some source }
  let half := effSize kernel_source size? / 2
  let run := convGo source half (coords source.width source.height)
    (List.replicate (source.width * source.height * 4) 0) kernel_source
  (run.1.map fun d => ⟨source.width, source.height, d⟩, run.2, env2)

/-- A pure rendering of the kernel grid used at a given area: the promoted
static grid, or the promoted output of the generator on that area.  Used to
state run-level lemmas without threading the kernel-source state. -/
def kernelAt (ks : KernelSource) (area : Area) : Except String Grid :=
  match ks with
  | .static g => promoteGrid g
  | .gen f => promoteGrid (f area)

/-- The state-free form of one output pixel's computation. -/
def pixelRGB (img : ImageData) (ks : KernelSource) (half x y : ℕ) :
    Except String (ℕ × ℕ × ℕ) :=
  let area := mkArea img x y half
  match kernelAt ks area with
  | .error e => .error e
  | .ok kernel =>
    match accumAll area.pixels kernel with
    | .error e => .error e
    | .ok (asum, ksum) =>
      .ok (clampByte (floorAvg asum.r ksum.r),
           clampByte (floorAvg asum.g ksum.g),
           clampByte (floorAvg asum.b ksum.b))

/-- The state-free form of the double pixel loop. -/
def convPure (img : ImageData) (ks : KernelSource) (half : ℕ) :
    List (ℕ × ℕ) → List ℕ → Except String (List ℕ)
  | [], d => .ok d
  | (x, y) :: rest, d =>
    match pixelRGB img ks half x y with
    | .error e => .error e
    | .ok (r, g, b) => convPure img ks half rest (writePixel d (getPixelLocation img x y) r g b)

/-- A kernel source whose scalar-promotion step is a no-op: a generator, or a
static grid that promotion returns unchanged. -/
def StableKS : KernelSource → Prop
  | .static g => promoteGrid g = .ok g
  | .gen _ => True

/-- A generator producing, for every area, the uniform kernel of the area's
exact shape with the constant Pixel weight w in every cell. -/
def uniformGen (w : Pixel) : KernelSource :=
  .gen fun area => area.pixels.map fun row => row.map fun _ => Cell.px w

/-- A static grid of bare scalar cells built from a grid of numbers. -/
def numsGrid (g : List (List ℤ)) : Grid :=
  g.map fun row => row.map Cell.num

/-- A static grid of explicit Pixel cells (n,n,n,255) built from the same grid
of numbers. -/
def pxGrid (g : List (List ℤ)) : Grid :=
  g.map fun row => row.map fun n => Cell.px (Pixel.mk1 n)

/-- Concrete input for the C2 scenario: the 3×3 image whose red channels are
10..90 row-major (other color channels 0, alpha 255). -/
def imgC2 : ImageData :=
  ⟨3, 3, [10,0,0,255, 20,0,0,255, 30,0,0,255,
          40,0,0,255, 50,0,0,255, 60,0,0,255,
          70,0,0,255, 80,0,0,255, 90,0,0,255]⟩

/-- The static all-ones 3×3 kernel of bare scalars. -/
def onesKernel3 : Grid :=
  [[.num 1, .num 1, .num 1], [.num 1, .num 1, .num 1], [.num 1, .num 1, .num 1]]

/-- An environment in which the global CONV_IMG_DATA has never been set. -/
def envEmpty : Env := ⟨none⟩

/-- The specification-side quantity for the edge-normalization claim: the sum
of the channel bytes at offset `off` over the nr × nc corner neighborhood of
the image (rows 0..nr-1, columns 0..nc-1). -/
def cornerSum (img : ImageData) (nr nc off : ℕ) : ℕ :=
  ((List.range nr).map fun (j : ℕ) =>
    ((List.range nc).map fun (i : ℕ) =>
      img.data.getD ((j * img.width + i) * 4 + off) 0).sum).sum

end imgproc

namespace imgproc

theorem floor_intCast_div_intCast (n d : ℤ) (hd : 0 < d) :
    ⌊(n : ℚ) / (d : ℚ)⌋ = n / d := by
  have h1 : ((d.toNat : ℕ) : ℤ) = d := Int.toNat_of_nonneg (le_of_lt hd)
  have h2 : ((d.toNat : ℕ) : ℚ) = (d : ℚ) := by exact_mod_cast congrArg (fun z : ℤ => (z : ℚ)) h1
  calc ⌊(n : ℚ) / (d : ℚ)⌋ = ⌊(n : ℚ) / ((d.toNat : ℕ) : ℚ)⌋ := by rw [h2]
    _ = n / ((d.toNat : ℕ) : ℤ) := Rat.floor_intCast_div_natCast n d.toNat
    _ = n / d := by rw [h1]

theorem jsFloorDiv_eq_floor (a b : ℤ) (hb : b ≠ 0) :
    jsFloorDiv a b = ⌊(a : ℚ) / (b : ℚ)⌋ := by
  unfold jsFloorDiv
  rcases lt_or_gt_of_ne hb with hneg | hpos
  · rw [if_neg (by omega)]
    have h1 : ((-a : ℤ) : ℚ) / ((-b : ℤ) : ℚ) = (a : ℚ) / (b : ℚ) := by
      push_cast
      rw [neg_div_neg_eq]
    rw [← h1, floor_intCast_div_intCast (-a) (-b) (by omega)]
  · rw [if_pos (by omega), floor_intCast_div_intCast a b hpos]

theorem jsFloorDiv_mul_right (a b c : ℤ) (hb : b ≠ 0) (hc : c ≠ 0) :
    jsFloorDiv (a * c) (b * c) = jsFloorDiv a b := by
  rw [jsFloorDiv_eq_floor _ _ (mul_ne_zero hb hc), jsFloorDiv_eq_floor _ _ hb]
  congr 1
  push_cast
  rw [mul_div_mul_right _ _ (by exact_mod_cast hc)]

theorem jsFloorDiv_natCast (m n : ℕ) :
    jsFloorDiv (m : ℤ) (n : ℤ) = ((m / n : ℕ) : ℤ) := by
  unfold jsFloorDiv
  rw [if_pos (by positivity)]
  exact (Int.ofNat_ediv m n).symm

theorem convolution_fst (img : ImageData) (ks : KernelSource) (size? : Option ℕ) (env : Env) :
    (convolution img ks size? env).1 =
      (convGo img (effSize ks size? / 2) (coords img.width img.height)
        (List.replicate (img.width * img.height * 4) 0) ks).1.map
        (fun d => ⟨img.width, img.height, d⟩) := rfl

theorem convolution_snd (img : ImageData) (ks : KernelSource) (size? : Option ℕ) (env : Env) :
    (convolution img ks size? env).2.1 =
      (convGo img (effSize ks size? / 2) (coords img.width img.height)
        (List.replicate (img.width * img.height * 4) 0) ks).2 := rfl

theorem convolution_env (img : ImageData) (ks : KernelSource) (size? : Option ℕ) (env : Env) :
    (convolution img ks size? env).2.2 = { env with CONV_IMG_DATA := some img } := rfl

end imgproc

/-- C1: the output raster returned by convolution has exactly the width and
height of the input raster, for every input, kernel source and size. -/
theorem C1_dimension_preservation (img : imgproc.ImageData) (ks : imgproc.KernelSource)
    (size? : Option ℕ) (env : imgproc.Env) (out : imgproc.ImageData)
    (h : (imgproc.convolution img ks size? env).1 = .ok out) :
    out.width = img.width ∧ out.height = img.height := by
  rw [imgproc.convolution_fst] at h
  rcases hr : (imgproc.convGo img (imgproc.effSize ks size? / 2)
      (imgproc.coords img.width img.height)
      (List.replicate (img.width * img.height * 4) 0) ks).1 with e | d
  · rw [hr] at h; exact absurd h (by simp [Except.map])
  · rw [hr] at h
    simp only [Except.map] at h
    cases h
    exact ⟨rfl, rfl⟩

/-- C1 witness: a concrete successful run on a 1×1 image, with the hypothesis
discharged by evaluation. -/
theorem C1_dimension_preservation_witness :
    (imgproc.ImageData.mk 1 1 [7, 7, 7, 255]).width = 1 ∧
      (imgproc.ImageData.mk 1 1 [7, 7, 7, 255]).height = 1 :=
  C1_dimension_preservation ⟨1, 1, [7, 7, 7, 9]⟩ (.static [[.num 1]]) (some 1)
    imgproc.envEmpty ⟨1, 1, [7, 7, 7, 255]⟩ rfl

/-- C2: on the 3×3 image whose red channels are 10..90 row-major, convolved
with the static all-ones 3×3 kernel at size 3, the output's center pixel (1,1)
has red channel exactly 50 (the floored mean of the nine reds). -/
theorem C2_concrete_center :
    ((imgproc.convolution imgproc.imgC2 (.static imgproc.onesKernel3) (some 3)
        imgproc.envEmpty).1.map
      (fun out => out.data.getD (imgproc.getPixelLocation imgproc.imgC2 1 1) 0)) = .ok 50 := rfl

namespace imgproc

theorem promoteGrid_idem (g g2 : Grid) (h : promoteGrid g = .ok g2) :
    promoteGrid g2 = .ok g2 := by
  rcases hg : g.head? with _ | row
  · simp [promoteGrid, hg] at h
  · rcases hr : row.head? with _ | c
    · simp [promoteGrid, hg, hr] at h
    · cases c with
      | px p =>
        simp only [promoteGrid, hg, hr] at h
        cases h
        simp [promoteGrid, hg, hr]
      | num n =>
        simp only [promoteGrid, hg, hr] at h
        cases h
        simp [promoteGrid, List.head?_map, hg, hr, promoteCell]

theorem convolvePixelStep_fst (img : ImageData) (ks : KernelSource) (half x y : ℕ) :
    (convolvePixelStep img ks half x y).1 = pixelRGB img ks half x y := by
  cases ks with
  | static g =>
    cases hp : promoteGrid g with
    | error e => simp [convolvePixelStep, pixelRGB, kernelAt, resolveKernel, hp]
    | ok g2 =>
      cases ha : accumAll (mkArea img x y half).pixels g2 with
      | error e => simp [convolvePixelStep, pixelRGB, kernelAt, resolveKernel, hp, ha]
      | ok st =>
        cases st
        simp [convolvePixelStep, pixelRGB, kernelAt, resolveKernel, hp, ha]
  | gen f =>
    cases hp : promoteGrid (f (mkArea img x y half)) with
    | error e => simp [convolvePixelStep, pixelRGB, kernelAt, resolveKernel, hp]
    | ok g2 =>
      cases ha : accumAll (mkArea img x y half).pixels g2 with
      | error e => simp [convolvePixelStep, pixelRGB, kernelAt, resolveKernel, hp, ha]
      | ok st =>
        cases st
        simp [convolvePixelStep, pixelRGB, kernelAt, resolveKernel, hp, ha]

theorem pixelRGB_congr (img : ImageData) (ks ks2 : KernelSource) (half x y : ℕ)
    (h : ∀ a, kernelAt ks a = kernelAt ks2 a) :
    pixelRGB img ks half x y = pixelRGB img ks2 half x y := by
  simp only [pixelRGB]
  rw [h (mkArea img x y half)]

theorem convolvePixelStep_snd_gen (img : ImageData) (f : Area → Grid) (half x y : ℕ) :
    (convolvePixelStep img (.gen f) half x y).2 = .gen f := by
  cases hp : promoteGrid (f (mkArea img x y half)) with
  | error e => simp [convolvePixelStep, resolveKernel, hp]
  | ok g2 =>
    cases ha : accumAll (mkArea img x y half).pixels g2 with
    | error e => simp [convolvePixelStep, resolveKernel, hp, ha]
    | ok st =>
      cases st
      simp [convolvePixelStep, resolveKernel, hp, ha]

theorem convolvePixelStep_snd_static (img : ImageData) (g g2 : Grid) (half x y : ℕ)
    (hp : promoteGrid g = .ok g2) :
    (convolvePixelStep img (.static g) half x y).2 = .static g2 := by
  cases ha : accumAll (mkArea img x y half).pixels g2 with
  | error e => simp [convolvePixelStep, resolveKernel, hp, ha]
  | ok st =>
    cases st
    simp [convolvePixelStep, resolveKernel, hp, ha]

theorem convolvePixelStep_snd_stable (img : ImageData) (ks : KernelSource) (half x y : ℕ)
    (h : StableKS ks) :
    (convolvePixelStep img ks half x y).2 = ks := by
  cases ks with
  | static g => exact convolvePixelStep_snd_static img g g half x y h
  | gen f => exact convolvePixelStep_snd_gen img f half x y

theorem convolvePixelStep_static_promotes (img : ImageData) (g : Grid) (half x y : ℕ)
    (v : ℕ × ℕ × ℕ) (h : (convolvePixelStep img (.static g) half x y).1 = .ok v) :
    ∃ g2, promoteGrid g = .ok g2 ∧ (convolvePixelStep img (.static g) half x y).2 = .static g2 := by
  cases hp : promoteGrid g with
  | error e =>
    exfalso
    rw [convolvePixelStep_fst] at h
    simp [pixelRGB, kernelAt, hp] at h
  | ok g2 =>
    exact ⟨g2, rfl, convolvePixelStep_snd_static img g g2 half x y hp⟩

theorem convolvePixelStep_snd_kernelAt (img : ImageData) (ks : KernelSource) (half x y : ℕ)
    (v : ℕ × ℕ × ℕ) (h : (convolvePixelStep img ks half x y).1 = .ok v) :
    ∀ a, kernelAt (convolvePixelStep img ks half x y).2 a = kernelAt ks a := by
  intro a
  cases ks with
  | gen f => rw [convolvePixelStep_snd_gen]
  | static g =>
    obtain ⟨g2, hp, hsnd⟩ := convolvePixelStep_static_promotes img g half x y v h
    rw [hsnd]
    show promoteGrid g2 = promoteGrid g
    rw [hp, promoteGrid_idem g g2 hp]

theorem convolvePixelStep_snd_stable_of_ok (img : ImageData) (ks : KernelSource)
    (half x y : ℕ) (v : ℕ × ℕ × ℕ) (h : (convolvePixelStep img ks half x y).1 = .ok v) :
    StableKS (convolvePixelStep img ks half x y).2 := by
  cases ks with
  | gen f => rw [convolvePixelStep_snd_gen]; trivial
  | static g =>
    obtain ⟨g2, hp, hsnd⟩ := convolvePixelStep_static_promotes img g half x y v h
    rw [hsnd]
    exact promoteGrid_idem g g2 hp

theorem convGo_fst (img : ImageData) (half : ℕ) (ks : KernelSource) :
    ∀ (cs : List (ℕ × ℕ)) (d : List ℕ) (ks2 : KernelSource),
      (∀ a, kernelAt ks2 a = kernelAt ks a) →
      (convGo img half cs d ks2).1 = convPure img ks half cs d := by
  intro cs
  induction cs with
  | nil => intro d ks2 _; rfl
  | cons c rest ih =>
    intro d ks2 hk
    obtain ⟨x, y⟩ := c
    have hfst : (convolvePixelStep img ks2 half x y).1 = pixelRGB img ks half x y := by
      rw [convolvePixelStep_fst]
      exact pixelRGB_congr img ks2 ks half x y (fun a => hk a)
    rcases hstep : convolvePixelStep img ks2 half x y with ⟨res, ks3⟩
    rw [hstep] at hfst
    simp only at hfst
    cases res with
    | error e =>
      simp only [convGo, convPure, hstep, ← hfst]
    | ok v =>
      obtain ⟨r, g, b⟩ := v
      have hks3 : ∀ a, kernelAt ks3 a = kernelAt ks a := by
        intro a
        have h4 := convolvePixelStep_snd_kernelAt img ks2 half x y (r, g, b)
          (by rw [hstep]) a
        rw [hstep] at h4
        simp only at h4
        rw [h4]
        exact hk a
      simp only [convGo, convPure, hstep, ← hfst]
      exact ih (writePixel d (getPixelLocation img x y) r g b) ks3 hks3

theorem convGo_snd_stable (img : ImageData) (half : ℕ) :
    ∀ (cs : List (ℕ × ℕ)) (d : List ℕ) (ks : KernelSource), StableKS ks →
      (convGo img half cs d ks).2 = ks := by
  intro cs
  induction cs with
  | nil => intro d ks _; rfl
  | cons c rest ih =>
    intro d ks hs
    obtain ⟨x, y⟩ := c
    have h2 : (convolvePixelStep img ks half x y).2 = ks :=
      convolvePixelStep_snd_stable img ks half x y hs
    rcases hstep : convolvePixelStep img ks half x y with ⟨res, ks3⟩
    rw [hstep] at h2
    simp only at h2
    cases res with
    | error e =>
      simp only [convGo, hstep, h2]
    | ok v =>
      obtain ⟨r, g, b⟩ := v
      simp only [convGo, hstep, h2]
      exact ih _ ks hs

theorem convGo_snd_cons (img : ImageData) (half x y : ℕ) (rest : List (ℕ × ℕ))
    (d : List ℕ) (ks ks2 : KernelSource)
    (hsnd : (convolvePixelStep img ks half x y).2 = ks2) (hst : StableKS ks2) :
    (convGo img half ((x, y) :: rest) d ks).2 = ks2 := by
  rcases hstep : convolvePixelStep img ks half x y with ⟨res, ks3⟩
  rw [hstep] at hsnd
  simp only at hsnd
  cases res with
  | error e =>
    simp only [convGo, hstep, hsnd]
  | ok v =>
    obtain ⟨r, g, b⟩ := v
    simp only [convGo, hstep, hsnd]
    rw [← hsnd]
    exact convGo_snd_stable img half rest _ ks3 (hsnd ▸ hst)

end imgproc

namespace imgproc

theorem coords_mem (w h x y : ℕ) : (x, y) ∈ coords w h ↔ x < w ∧ y < h := by
  simp only [coords, List.mem_flatMap, List.mem_map, List.mem_range]
  constructor
  · rintro ⟨y2, hy2, x2, hx2, heq⟩
    cases heq
    exact ⟨hx2, hy2⟩
  · rintro ⟨hx, hy⟩
    exact ⟨y, hy, x, hx, rfl⟩

theorem coords_succ (w h : ℕ) :
    coords w (h + 1) = coords w h ++ (List.range w).map (fun x => (x, h)) := by
  simp [coords, List.range_succ]

theorem coords_nodup (w h : ℕ) : (coords w h).Nodup := by
  induction h with
  | zero => simp [coords]
  | succ h ih =>
    rw [coords_succ]
    refine List.Nodup.append ih ?_ ?_
    · exact List.Nodup.map (fun a b hab => by simpa using hab) (List.nodup_range w)
    · intro c hc1 hc2
      rw [coords_mem w h c.1 c.2] at hc1
      simp only [List.mem_map, List.mem_range] at hc2
      obtain ⟨x2, _, heq⟩ := hc2
      have : c.2 = h := by rw [← heq]
      omega

theorem writePixel_length (d : List ℕ) (loc r g b : ℕ) :
    (writePixel d loc r g b).length = d.length := by
  simp [writePixel]

theorem writePixel_getD_ne (d : List ℕ) (loc r g b idx : ℕ)
    (h : ∀ o, o < 4 → loc + o ≠ idx) :
    (writePixel d loc r g b).getD idx 0 = d.getD idx 0 := by
  have h0 : loc ≠ idx := by have := h 0 (by omega); omega
  have h1 : loc + 1 ≠ idx := h 1 (by omega)
  have h2 : loc + 2 ≠ idx := h 2 (by omega)
  have h3 : loc + 3 ≠ idx := h 3 (by omega)
  simp only [writePixel, List.getD_eq_getElem?_getD, List.getElem?_set_ne h3,
    List.getElem?_set_ne h2, List.getElem?_set_ne h1, List.getElem?_set_ne h0]

theorem writePixel_getD_self (d : List ℕ) (loc r g b : ℕ) (hlen : loc + 3 < d.length) :
    (writePixel d loc r g b).getD loc 0 = r ∧
      (writePixel d loc r g b).getD (loc + 1) 0 = g ∧
      (writePixel d loc r g b).getD (loc + 2) 0 = b ∧
      (writePixel d loc r g b).getD (loc + 3) 0 = 255 := by
  refine ⟨?_, ?_, ?_, ?_⟩
  · simp only [writePixel, List.getD_eq_getElem?_getD,
      List.getElem?_set_ne (show loc + 3 ≠ loc by omega),
      List.getElem?_set_ne (show loc + 2 ≠ loc by omega),
      List.getElem?_set_ne (show loc + 1 ≠ loc by omega)]
    rw [List.getElem?_set_self (by omega)]
    rfl
  · simp only [writePixel, List.getD_eq_getElem?_getD,
      List.getElem?_set_ne (show loc + 3 ≠ loc + 1 by omega),
      List.getElem?_set_ne (show loc + 2 ≠ loc + 1 by omega)]
    rw [List.getElem?_set_self (by simp; omega)]
    rfl
  · simp only [writePixel, List.getD_eq_getElem?_getD,
      List.getElem?_set_ne (show loc + 3 ≠ loc + 2 by omega)]
    rw [List.getElem?_set_self (by simp; omega)]
    rfl
  · simp only [writePixel, List.getD_eq_getElem?_getD]
    rw [List.getElem?_set_self (by simp; omega)]
    rfl

theorem pixIndex_lt (w h x y : ℕ) (hx : x < w) (hy : y < h) : y * w + x < w * h := by
  have h1 : y * w + x < (y + 1) * w := by
    rw [add_mul, one_mul]
    omega
  have h2 : (y + 1) * w ≤ h * w := Nat.mul_le_mul_right w hy
  rw [mul_comm w h]
  omega

theorem pixIndex_inj (w x1 y1 x2 y2 : ℕ) (hx1 : x1 < w) (hx2 : x2 < w)
    (h : y1 * w + x1 = y2 * w + x2) : x1 = x2 ∧ y1 = y2 := by
  have hw : 0 < w := by omega
  have e1 : (x1 + y1 * w) % w = x1 := by
    rw [Nat.add_mul_mod_self_right]
    exact Nat.mod_eq_of_lt hx1
  have e2 : (x2 + y2 * w) % w = x2 := by
    rw [Nat.add_mul_mod_self_right]
    exact Nat.mod_eq_of_lt hx2
  have e3 : (x1 + y1 * w) / w = y1 := by
    rw [Nat.add_mul_div_right _ _ hw, Nat.div_eq_of_lt hx1]
    omega
  have e4 : (x2 + y2 * w) / w = y2 := by
    rw [Nat.add_mul_div_right _ _ hw, Nat.div_eq_of_lt hx2]
    omega
  have h2 : x1 + y1 * w = x2 + y2 * w := by omega
  constructor
  · rw [← e1, ← e2, h2]
  · rw [← e3, ← e4, h2]

theorem getPixelLocation_blocks_ne (img : ImageData) (x1 y1 x2 y2 : ℕ)
    (hx1 : x1 < img.width) (hx2 : x2 < img.width) (hne : (x1, y1) ≠ (x2, y2)) :
    ∀ o1 o2, o1 < 4 → o2 < 4 → getPixelLocation img x1 y1 + o1 ≠ getPixelLocation img x2 y2 + o2 := by
  intro o1 o2 ho1 ho2
  unfold getPixelLocation
  intro hcontra
  have hp : y1 * img.width + x1 = y2 * img.width + x2 := by omega
  obtain ⟨hx, hy⟩ := pixIndex_inj img.width x1 y1 x2 y2 hx1 hx2 hp
  exact hne (by rw [hx, hy])

theorem convPure_ok_length (img : ImageData) (ks : KernelSource) (half : ℕ) :
    ∀ (cs : List (ℕ × ℕ)) (d d' : List ℕ), convPure img ks half cs d = .ok d' →
      d'.length = d.length := by
  intro cs
  induction cs with
  | nil =>
    intro d d' h
    cases h
    rfl
  | cons c rest ih =>
    intro d d' h
    obtain ⟨cx, cy⟩ := c
    rcases hp : pixelRGB img ks half cx cy with e | v
    · rw [convPure, hp] at h
      exact absurd h (by simp)
    · obtain ⟨r, g, b⟩ := v
      rw [convPure, hp] at h
      simp only at h
      rw [ih _ _ h, writePixel_length]

theorem convPure_untouched (img : ImageData) (ks : KernelSource) (half : ℕ) (idx : ℕ) :
    ∀ (cs : List (ℕ × ℕ)) (d d' : List ℕ), convPure img ks half cs d = .ok d' →
      (∀ c ∈ cs, ∀ o, o < 4 → getPixelLocation img c.1 c.2 + o ≠ idx) →
      d'.getD idx 0 = d.getD idx 0 := by
  intro cs
  induction cs with
  | nil =>
    intro d d' h _
    cases h
    rfl
  | cons c rest ih =>
    intro d d' h havoid
    obtain ⟨cx, cy⟩ := c
    rcases hp : pixelRGB img ks half cx cy with e | v
    · rw [convPure, hp] at h
      exact absurd h (by simp)
    · obtain ⟨r, g, b⟩ := v
      rw [convPure, hp] at h
      simp only at h
      rw [ih _ _ h (fun c hc => havoid c (List.mem_cons_of_mem _ hc))]
      exact writePixel_getD_ne d _ r g b idx
        (havoid (cx, cy) (List.mem_cons_self _ _))

theorem convPure_extract (img : ImageData) (ks : KernelSource) (half : ℕ) :
    ∀ (cs : List (ℕ × ℕ)) (d d' : List ℕ), convPure img ks half cs d = .ok d' →
      d.length = img.width * img.height * 4 →
      (∀ c ∈ cs, c.1 < img.width ∧ c.2 < img.height) →
      cs.Nodup →
      ∀ x y, (x, y) ∈ cs →
        ∃ r g b, pixelRGB img ks half x y = .ok (r, g, b) ∧
          d'.getD (getPixelLocation img x y) 0 = r ∧
          d'.getD (getPixelLocation img x y + 1) 0 = g ∧
          d'.getD (getPixelLocation img x y + 2) 0 = b ∧
          d'.getD (getPixelLocation img x y + 3) 0 = 255 := by
  intro cs
  induction cs with
  | nil =>
    intro d d' _ _ _ _ x y hmem
    exact absurd hmem (by simp)
  | cons c rest ih =>
    intro d d' h hlen hb hnd x y hmem
    obtain ⟨cx, cy⟩ := c
    rcases hp : pixelRGB img ks half cx cy with e | v
    · rw [convPure, hp] at h
      exact absurd h (by simp)
    · obtain ⟨r, g, b⟩ := v
      rw [convPure, hp] at h
      simp only at h
      by_cases hc : (cx, cy) = (x, y)
      · obtain ⟨hcx, hcy⟩ : cx = x ∧ cy = y := by
          constructor
          · exact congrArg Prod.fst hc
          · exact congrArg Prod.snd hc
        subst hcx
        subst hcy
        refine ⟨r, g, b, hp, ?_⟩
        have hbxy : cx < img.width ∧ cy < img.height := hb (cx, cy) (List.mem_cons_self _ _)
        have hpl3 : getPixelLocation img cx cy + 3 < d.length := by
          have hk := pixIndex_lt img.width img.height cx cy hbxy.1 hbxy.2
          unfold getPixelLocation
          omega
        have hnotin : (cx, cy) ∉ rest := (List.nodup_cons.mp hnd).1
        have huntouched : ∀ o, o < 4 →
            d'.getD (getPixelLocation img cx cy + o) 0 =
              (writePixel d (getPixelLocation img cx cy) r g b).getD
                (getPixelLocation img cx cy + o) 0 := by
          intro o ho
          refine convPure_untouched img ks half _ rest _ d' h ?_
          intro c2 hc2 o2 ho2
          have hbc2 := hb c2 (List.mem_cons_of_mem _ hc2)
          have hne : (c2.1, c2.2) ≠ (cx, cy) := by
            intro heq
            apply hnotin
            have : c2 = (cx, cy) := by
              rw [← heq]
            rw [← this]
            exact hc2
          exact getPixelLocation_blocks_ne img c2.1 c2.2 cx cy hbc2.1 hbxy.1 hne o2 o ho2 ho
        obtain ⟨w0, w1, w2, w3⟩ := writePixel_getD_self d (getPixelLocation img cx cy) r g b hpl3
        refine ⟨?_, ?_, ?_, ?_⟩
        · have := huntouched 0 (by omega)
          simp only [Nat.add_zero] at this
          rw [this, w0]
        · rw [huntouched 1 (by omega), w1]
        · rw [huntouched 2 (by omega), w2]
        · rw [huntouched 3 (by omega), w3]
      · have hmem2 : (x, y) ∈ rest := by
          rcases List.mem_cons.mp hmem with heq | hm
          · exact absurd heq.symm hc
          · exact hm
        refine ih (writePixel d (getPixelLocation img cx cy) r g b) d' h ?_ ?_ ?_ x y hmem2
        · rw [writePixel_length]
          exact hlen
        · intro c2 hc2
          exact hb c2 (List.mem_cons_of_mem _ hc2)
        · exact (List.nodup_cons.mp hnd).2

theorem convPure_all_ok (img : ImageData) (ks : KernelSource) (half : ℕ) :
    ∀ (cs : List (ℕ × ℕ)) (d : List ℕ),
      (∀ c ∈ cs, ∃ v, pixelRGB img ks half c.1 c.2 = .ok v) →
      ∃ d', convPure img ks half cs d = .ok d' := by
  intro cs
  induction cs with
  | nil => intro d _; exact ⟨d, rfl⟩
  | cons c rest ih =>
    intro d hall
    obtain ⟨cx, cy⟩ := c
    obtain ⟨v, hv⟩ := hall (cx, cy) (List.mem_cons_self _ _)
    obtain ⟨r, g, b⟩ := v
    obtain ⟨d', hd'⟩ := ih (writePixel d (getPixelLocation img cx cy) r g b)
      (fun c2 hc2 => hall c2 (List.mem_cons_of_mem _ hc2))
    refine ⟨d', ?_⟩
    rw [convPure, hv]
    exact hd'

theorem convolution_ok_pixel (img : ImageData) (ks : KernelSource) (size? : Option ℕ)
    (env : Env) (out : ImageData) (x y : ℕ)
    (h : (convolution img ks size? env).1 = .ok out)
    (hx : x < img.width) (hy : y < img.height) :
    ∃ r g b, pixelRGB img ks (effSize ks size? / 2) x y = .ok (r, g, b) ∧
      out.data.getD (getPixelLocation img x y) 0 = r ∧
      out.data.getD (getPixelLocation img x y + 1) 0 = g ∧
      out.data.getD (getPixelLocation img x y + 2) 0 = b ∧
      out.data.getD (getPixelLocation img x y + 3) 0 = 255 := by
  rw [convolution_fst] at h
  rcases hr : (convGo img (effSize ks size? / 2) (coords img.width img.height)
      (List.replicate (img.width * img.height * 4) 0) ks).1 with e | d
  · rw [hr] at h
    exact absurd h (by simp [Except.map])
  · rw [hr] at h
    simp only [Except.map] at h
    cases h
    have hpure : convPure img ks (effSize ks size? / 2) (coords img.width img.height)
        (List.replicate (img.width * img.height * 4) 0) = .ok d := by
      rw [← convGo_fst img (effSize ks size? / 2) ks (coords img.width img.height)
        (List.replicate (img.width * img.height * 4) 0) ks (fun a => rfl)]
      exact hr
    exact convPure_extract img ks (effSize ks size? / 2) (coords img.width img.height)
      (List.replicate (img.width * img.height * 4) 0) d hpure
      (by simp)
      (fun c hc => by
        have := (coords_mem img.width img.height c.1 c.2).mp (by
          obtain ⟨c1, c2⟩ := c
          exact hc)
        exact this)
      (coords_nodup img.width img.height)
      x y ((coords_mem img.width img.height x y).mpr ⟨hx, hy⟩)

end imgproc

namespace imgproc

theorem promoteGrid_numsGrid (gq : List (List ℤ)) (row0 : List ℤ) (n0 : ℤ)
    (hhead : gq.head? = some row0) (hc : row0.head? = some n0) :
    promoteGrid (numsGrid gq) = .ok (pxGrid gq) := by
  have h1 : (numsGrid gq).head? = some (row0.map Cell.num) := by
    simp [numsGrid, List.head?_map, hhead]
  have h2 : (row0.map Cell.num).head? = some (Cell.num n0) := by
    simp [List.head?_map, hc]
  simp only [promoteGrid, h1, h2]
  simp [numsGrid, pxGrid, List.map_map, Function.comp, promoteCell]

theorem promoteGrid_px_head (g : Grid) (row : List Cell) (p : Pixel)
    (hhead : g.head? = some row) (hc : row.head? = some (.px p)) :
    promoteGrid g = .ok g := by
  simp [promoteGrid, hhead, hc]

theorem kernelAt_nums_px (gq : List (List ℤ)) :
    ∀ a, kernelAt (.static (numsGrid gq)) a = kernelAt (.static (pxGrid gq)) a := by
  intro a
  show promoteGrid (numsGrid gq) = promoteGrid (pxGrid gq)
  cases gq with
  | nil => rfl
  | cons row rest =>
    cases row with
    | nil => rfl
    | cons n ns =>
      rw [promoteGrid_numsGrid (List.cons (n :: ns) rest) (n :: ns) n rfl rfl]
      rw [promoteGrid_px_head (pxGrid (List.cons (n :: ns) rest))
        ((n :: ns).map fun m => Cell.px (Pixel.mk1 m)) (Pixel.mk1 n)
        (by simp [pxGrid]) (by simp)]

theorem convPure_congr (img : ImageData) (ks ks2 : KernelSource) (half : ℕ)
    (hk : ∀ a, kernelAt ks a = kernelAt ks2 a) :
    ∀ (cs : List (ℕ × ℕ)) (d : List ℕ),
      convPure img ks half cs d = convPure img ks2 half cs d := by
  intro cs
  induction cs with
  | nil => intro d; rfl
  | cons c rest ih =>
    intro d
    obtain ⟨cx, cy⟩ := c
    rw [convPure, convPure, pixelRGB_congr img ks ks2 half cx cy hk]
    cases pixelRGB img ks2 half cx cy with
    | error e => rfl
    | ok v =>
      obtain ⟨r, g, b⟩ := v
      exact ih _

theorem coords_ne_nil (w h : ℕ) (hw : 0 < w) (hh : 0 < h) : coords w h ≠ [] := by
  intro hnil
  have : (0, 0) ∈ coords w h := (coords_mem w h 0 0).mpr ⟨hw, hh⟩
  rw [hnil] at this
  exact absurd this (by simp)

end imgproc

/-- C5: a static kernel grid of bare scalar numbers produces exactly the same
convolution result as the same grid with every cell replaced by the explicit
Pixel weight (n,n,n,255): scalar cells are promoted via the one-argument Pixel
constructor before accumulation. -/
theorem C5_scalar_kernel_promotion (img : imgproc.ImageData) (gq : List (List ℤ))
    (size? : Option ℕ) (env : imgproc.Env) :
    (imgproc.convolution img (.static (imgproc.numsGrid gq)) size? env).1 =
      (imgproc.convolution img (.static (imgproc.pxGrid gq)) size? env).1 := by
  rw [imgproc.convolution_fst, imgproc.convolution_fst]
  have hsz : imgproc.effSize (.static (imgproc.numsGrid gq)) size? =
      imgproc.effSize (.static (imgproc.pxGrid gq)) size? := by
    simp [imgproc.effSize, imgproc.numsGrid, imgproc.pxGrid]
  rw [hsz]
  rw [imgproc.convGo_fst img _ (.static (imgproc.numsGrid gq)) _ _
    (.static (imgproc.numsGrid gq)) (fun a => rfl)]
  rw [imgproc.convGo_fst img _ (.static (imgproc.pxGrid gq)) _ _
    (.static (imgproc.pxGrid gq)) (fun a => rfl)]
  exact congrArg
    (Except.map fun d => (⟨img.width, img.height, d⟩ : imgproc.ImageData))
    (imgproc.convPure_congr img _ _ _ (imgproc.kernelAt_nums_px gq) _ _)

/-- C6: with the size argument omitted, convolution uses the static kernel
grid's length as the kernel side length for an array source, and the
process-wide default 5 only for a generator source. -/
theorem C6_size_defaulting (img : imgproc.ImageData) (g : imgproc.Grid)
    (f : imgproc.Area → imgproc.Grid) (env : imgproc.Env) (hg : g.length ≠ 0) :
    imgproc.effSize (.static g) none = g.length ∧
    imgproc.effSize (.gen f) none = 5 ∧
    imgproc.convolution img (.static g) none env =
      imgproc.convolution img (.static g) (some g.length) env ∧
    imgproc.convolution img (.gen f) none env =
      imgproc.convolution img (.gen f) (some 5) env := by
  refine ⟨rfl, rfl, ?_, ?_⟩
  · unfold imgproc.convolution
    rw [show imgproc.effSize (.static g) (some g.length) = g.length from by
      simp [imgproc.effSize, hg]]
    rfl
  · rfl

/-- C6 witness: the defaulting equalities at a concrete 2×2 static grid and a
concrete generator. -/
theorem C6_size_defaulting_witness :
    imgproc.effSize (.static [[.num 1, .num 2], [.num 3, .num 4]]) none = 2 ∧
    imgproc.effSize (.gen fun _ => [[.num 1]]) none = 5 ∧
    imgproc.convolution imgproc.imgC2 (.static [[.num 1, .num 2], [.num 3, .num 4]]) none
        imgproc.envEmpty =
      imgproc.convolution imgproc.imgC2 (.static [[.num 1, .num 2], [.num 3, .num 4]])
        (some 2) imgproc.envEmpty ∧
    imgproc.convolution imgproc.imgC2 (.gen fun _ => [[.num 1]]) none imgproc.envEmpty =
      imgproc.convolution imgproc.imgC2 (.gen fun _ => [[.num 1]]) (some 5) imgproc.envEmpty := by
  have h := C6_size_defaulting imgproc.imgC2 [[.num 1, .num 2], [.num 3, .num 4]]
    (fun _ => [[.num 1]]) imgproc.envEmpty (by decide)
  exact h

/-- C8 counterexample: convolution does leave residue in the enclosing
environment: on a concrete call the global CONV_IMG_DATA afterwards differs
from its value before the call, refuting the no-observable-state-change
claim. -/
theorem C8_purity_counterexample :
    (imgproc.convolution imgproc.imgC2 (.static imgproc.onesKernel3) (some 3)
        imgproc.envEmpty).2.2 ≠ imgproc.envEmpty := by
  rw [imgproc.convolution_env]
  simp [imgproc.envEmpty]

/-- C8 amended: convolution is deterministic and its result and final kernel
state do not depend on the prior environment, but the call is not free of
external effects: it always overwrites the global CONV_IMG_DATA with the input
image (and, per C10, promotes a scalar static kernel in place). -/
theorem C8_purity_amended (img : imgproc.ImageData) (ks : imgproc.KernelSource)
    (size? : Option ℕ) (env env2 : imgproc.Env) :
    (imgproc.convolution img ks size? env).1 = (imgproc.convolution img ks size? env2).1 ∧
    (imgproc.convolution img ks size? env).2.1 =
      (imgproc.convolution img ks size? env2).2.1 ∧
    (imgproc.convolution img ks size? env).2.2 =
      { env with CONV_IMG_DATA := some img } :=
  ⟨rfl, rfl, rfl⟩

/-- C4 counterexample: a kernel whose weights sum to zero on every color
channel does not raise any error: the call completes and returns an output
buffer (the NaN of 0/0 is stored as 0), refuting both the typed-error claim
and the no-output-on-failure claim. -/
theorem C4_degenerate_kernel_counterexample :
    (imgproc.convolution ⟨1, 1, [10, 20, 30, 255]⟩ (.static [[.num 0]]) (some 1)
        imgproc.envEmpty).1 = .ok ⟨1, 1, [0, 0, 0, 255]⟩ := rfl

/-- C10: passing a static grid whose first cell is a bare number mutates the
caller's kernel array in place: afterwards every cell holds a Pixel object
(scalar n becoming (n,n,n,255)); and the promotion is triggered by inspecting
only cell [0][0]: a grid whose first cell is already a Pixel is left untouched
whatever its other cells hold. -/
theorem C10_kernel_mutation (img : imgproc.ImageData) (env : imgproc.Env)
    (size? : Option ℕ) (gq : List (List ℤ)) (row0 : List ℤ) (n0 : ℤ)
    (hW : 0 < img.width) (hH : 0 < img.height)
    (hhead : gq.head? = some row0) (hc : row0.head? = some n0) :
    (imgproc.convolution img (.static (imgproc.numsGrid gq)) size? env).2.1 =
      .static (imgproc.pxGrid gq) ∧
    (∀ (g : imgproc.Grid) (row : List imgproc.Cell) (p : imgproc.Pixel),
      g.head? = some row → row.head? = some (.px p) →
      (imgproc.convolution img (.static g) size? env).2.1 = .static g) := by
  constructor
  · have hp := imgproc.promoteGrid_numsGrid gq row0 n0 hhead hc
    rw [imgproc.convolution_snd]
    obtain ⟨c, rest, hcs⟩ := List.exists_cons_of_ne_nil
      (imgproc.coords_ne_nil img.width img.height hW hH)
    rw [hcs]
    obtain ⟨cx, cy⟩ := c
    exact imgproc.convGo_snd_cons img _ cx cy rest _ _ _
      (imgproc.convolvePixelStep_snd_static img _ _ _ cx cy hp)
      (imgproc.promoteGrid_idem _ _ hp)
  · intro g row p hghead hrow
    have hst : imgproc.StableKS (.static g) := imgproc.promoteGrid_px_head g row p hghead hrow
    rw [imgproc.convolution_snd]
    exact imgproc.convGo_snd_stable img _ _ _ _ hst

/-- C10 witness: the in-place promotion observed on a concrete 1×1 image with
a concrete scalar grid, and the untouched mixed grid whose cell [0][0] is a
Pixel. -/
theorem C10_kernel_mutation_witness :
    (imgproc.convolution ⟨1, 1, [10, 20, 30, 255]⟩
        (.static (imgproc.numsGrid [[2]])) (some 1) imgproc.envEmpty).2.1 =
      .static (imgproc.pxGrid [[2]]) ∧
    (∀ (g : imgproc.Grid) (row : List imgproc.Cell) (p : imgproc.Pixel),
      g.head? = some row → row.head? = some (.px p) →
      (imgproc.convolution ⟨1, 1, [10, 20, 30, 255]⟩ (.static g) (some 1)
        imgproc.envEmpty).2.1 = .static g) :=
  C10_kernel_mutation ⟨1, 1, [10, 20, 30, 255]⟩ imgproc.envEmpty (some 1) [[2]] [2] 2
    (by decide) (by decide) rfl rfl

namespace imgproc

theorem mkArea_left (img : ImageData) (x y half : ℕ) :
    (mkArea img x y half).left = max ((x : ℤ) - half) 0 := by
  simp only [mkArea]
  split_ifs with h <;> omega

theorem mkArea_top (img : ImageData) (x y half : ℕ) :
    (mkArea img x y half).top = max ((y : ℤ) - half) 0 := by
  simp only [mkArea]
  split_ifs with h <;> omega

theorem mkArea_right (img : ImageData) (x y half : ℕ) :
    (mkArea img x y half).right = min ((x : ℤ) + half) ((img.width : ℤ) - 1) := by
  simp only [mkArea]
  split_ifs with h <;> omega

theorem mkArea_bottom (img : ImageData) (x y half : ℕ) :
    (mkArea img x y half).bottom = min ((y : ℤ) + half) ((img.height : ℤ) - 1) := by
  simp only [mkArea]
  split_ifs with h <;> omega

theorem mkArea_pixels_shape (img : ImageData) (x y half : ℕ) :
    (mkArea img x y half).pixels =
      (List.range ((mkArea img x y half).bottom - (mkArea img x y half).top + 1).toNat).map
        fun (j : ℕ) =>
          (List.range ((mkArea img x y half).right - (mkArea img x y half).left + 1).toNat).map
            fun (i : ℕ) =>
              getPixel img ((mkArea img x y half).left + (i : ℤ)).toNat
                ((mkArea img x y half).top + (j : ℤ)).toNat := rfl

theorem rangeMap_getD {α : Type} (n : ℕ) (f : ℕ → α) (j : ℕ) (dflt : α) (hj : j < n) :
    ((List.range n).map f).getD j dflt = f j := by
  rw [List.getD_eq_getElem?_getD, List.getElem?_map, List.getElem?_range hj]
  rfl

end imgproc

/-- C9: the Area built around an in-range center (cx, cy) has its bounding box
clamped to the image independently per edge, its sampled grid has exactly
bottom-top+1 rows of right-left+1 pixels each, and every grid entry is the
actual image pixel read at the corresponding in-bounds coordinate
(left+i, top+j): the grid shrinks at the edges instead of being replicated or
padded with synthetic pixels. -/
theorem C9_area_invariant (img : imgproc.ImageData) (cx cy half : ℕ)
    (hx : cx < img.width) (hy : cy < img.height) :
    (imgproc.mkArea img cx cy half).left = max ((cx : ℤ) - half) 0 ∧
    (imgproc.mkArea img cx cy half).top = max ((cy : ℤ) - half) 0 ∧
    (imgproc.mkArea img cx cy half).right = min ((cx : ℤ) + half) ((img.width : ℤ) - 1) ∧
    (imgproc.mkArea img cx cy half).bottom = min ((cy : ℤ) + half) ((img.height : ℤ) - 1) ∧
    (imgproc.mkArea img cx cy half).pixels.length =
      ((imgproc.mkArea img cx cy half).bottom - (imgproc.mkArea img cx cy half).top + 1).toNat ∧
    (∀ row ∈ (imgproc.mkArea img cx cy half).pixels,
      row.length =
        ((imgproc.mkArea img cx cy half).right - (imgproc.mkArea img cx cy half).left + 1).toNat) ∧
    (∀ j i,
      j < ((imgproc.mkArea img cx cy half).bottom - (imgproc.mkArea img cx cy half).top + 1).toNat →
      i < ((imgproc.mkArea img cx cy half).right - (imgproc.mkArea img cx cy half).left + 1).toNat →
      (((imgproc.mkArea img cx cy half).pixels.getD j []).getD i imgproc.Pixel.mk0 =
        imgproc.getPixel img ((imgproc.mkArea img cx cy half).left + i).toNat
          ((imgproc.mkArea img cx cy half).top + j).toNat ∧
      ((imgproc.mkArea img cx cy half).left + i).toNat < img.width ∧
      ((imgproc.mkArea img cx cy half).top + j).toNat < img.height)) := by
  refine ⟨imgproc.mkArea_left img cx cy half, imgproc.mkArea_top img cx cy half,
    imgproc.mkArea_right img cx cy half, imgproc.mkArea_bottom img cx cy half, ?_, ?_, ?_⟩
  · rw [imgproc.mkArea_pixels_shape]
    simp
  · intro row hrow
    rw [imgproc.mkArea_pixels_shape] at hrow
    simp only [List.mem_map, List.mem_range] at hrow
    obtain ⟨j, _, hrow⟩ := hrow
    rw [← hrow]
    simp
  · intro j i hj hi
    constructor
    · conv in (imgproc.mkArea img cx cy half).pixels => rw [imgproc.mkArea_pixels_shape]
      rw [imgproc.rangeMap_getD _ _ j _ hj, imgproc.rangeMap_getD _ _ i _ hi]
    · have hl := imgproc.mkArea_left img cx cy half
      have hr := imgproc.mkArea_right img cx cy half
      have ht := imgproc.mkArea_top img cx cy half
      have hb := imgproc.mkArea_bottom img cx cy half
      constructor <;> omega

/-- C9 witness: the Area at the corner (0,0) of the concrete 3×3 image with
half size 1: box [0,1]×[0,1], a 2×2 sampled grid of genuine image pixels. -/
theorem C9_area_invariant_witness :
    (imgproc.mkArea imgproc.imgC2 0 0 1).left = max ((0 : ℤ) - 1) 0 ∧
    (imgproc.mkArea imgproc.imgC2 0 0 1).top = max ((0 : ℤ) - 1) 0 ∧
    (imgproc.mkArea imgproc.imgC2 0 0 1).right = min ((0 : ℤ) + 1) ((imgproc.imgC2.width : ℤ) - 1) ∧
    (imgproc.mkArea imgproc.imgC2 0 0 1).bottom = min ((0 : ℤ) + 1) ((imgproc.imgC2.height : ℤ) - 1) ∧
    (imgproc.mkArea imgproc.imgC2 0 0 1).pixels.length =
      ((imgproc.mkArea imgproc.imgC2 0 0 1).bottom - (imgproc.mkArea imgproc.imgC2 0 0 1).top + 1).toNat ∧
    (∀ row ∈ (imgproc.mkArea imgproc.imgC2 0 0 1).pixels,
      row.length =
        ((imgproc.mkArea imgproc.imgC2 0 0 1).right - (imgproc.mkArea imgproc.imgC2 0 0 1).left + 1).toNat) ∧
    (∀ j i,
      j < ((imgproc.mkArea imgproc.imgC2 0 0 1).bottom - (imgproc.mkArea imgproc.imgC2 0 0 1).top + 1).toNat →
      i < ((imgproc.mkArea imgproc.imgC2 0 0 1).right - (imgproc.mkArea imgproc.imgC2 0 0 1).left + 1).toNat →
      (((imgproc.mkArea imgproc.imgC2 0 0 1).pixels.getD j []).getD i imgproc.Pixel.mk0 =
        imgproc.getPixel imgproc.imgC2 ((imgproc.mkArea imgproc.imgC2 0 0 1).left + i).toNat
          ((imgproc.mkArea imgproc.imgC2 0 0 1).top + j).toNat ∧
      ((imgproc.mkArea imgproc.imgC2 0 0 1).left + i).toNat < imgproc.imgC2.width ∧
      ((imgproc.mkArea imgproc.imgC2 0 0 1).top + j).toNat < imgproc.imgC2.height)) :=
  C9_area_invariant imgproc.imgC2 0 0 1 (by decide) (by decide)

namespace imgproc

theorem mkArea_pixels_half_zero (img : ImageData) (x y : ℕ)
    (hx : x < img.width) (hy : y < img.height) :
    (mkArea img x y 0).pixels = [[getPixel img x y]] := by
  have hb : (mkArea img x y 0).bottom = (y : ℤ) := by rw [mkArea_bottom]; push_cast; omega
  have ht : (mkArea img x y 0).top = (y : ℤ) := by rw [mkArea_top]; push_cast; omega
  have hr : (mkArea img x y 0).right = (x : ℤ) := by rw [mkArea_right]; push_cast; omega
  have hl : (mkArea img x y 0).left = (x : ℤ) := by rw [mkArea_left]; push_cast; omega
  rw [mkArea_pixels_shape, hb, ht, hr, hl]
  have h1 : ((y : ℤ) - (y : ℤ) + 1).toNat = 1 := by omega
  have h2 : ((x : ℤ) - (x : ℤ) + 1).toNat = 1 := by omega
  rw [h1, h2, show List.range 1 = [0] from rfl]
  simp

theorem pixelRGB_zero_kernel (img : ImageData) (x y : ℕ)
    (hx : x < img.width) (hy : y < img.height) :
    pixelRGB img (.static [[Cell.num 0]]) 0 x y = .ok (0, 0, 0) := by
  have hk : kernelAt (.static [[Cell.num 0]]) (mkArea img x y 0) =
      .ok [[Cell.px (Pixel.mk1 0)]] := rfl
  simp only [pixelRGB, hk, mkArea_pixels_half_zero img x y hx hy]
  simp [accumAll, accumRows, accumCols, accumStep, oadd, omul, getPixel,
    Cell.chanR, Cell.chanG, Cell.chanB, Pixel.mk0, Pixel.mk1, floorAvg, clampByte]

end imgproc

/-- C4 amended: a kernel whose weights sum to zero for the color channels is
not rejected: convolution completes normally and produces an output buffer in
which each color channel holds the clamped store of the NaN produced by 0/0
(that is, 0) and alpha holds 255; no DegenerateKernelError exists in the
code. -/
theorem C4_degenerate_kernel_amended (img : imgproc.ImageData) (env : imgproc.Env)
    (x y : ℕ) (hx : x < img.width) (hy : y < img.height) :
    ∃ out, (imgproc.convolution img (.static [[imgproc.Cell.num 0]]) (some 1) env).1 = .ok out ∧
      out.data.getD (imgproc.getPixelLocation img x y) 0 = 0 ∧
      out.data.getD (imgproc.getPixelLocation img x y + 1) 0 = 0 ∧
      out.data.getD (imgproc.getPixelLocation img x y + 2) 0 = 0 ∧
      out.data.getD (imgproc.getPixelLocation img x y + 3) 0 = 255 := by
  have hall : ∀ c ∈ imgproc.coords img.width img.height,
      ∃ v, imgproc.pixelRGB img (.static [[imgproc.Cell.num 0]]) 0 c.1 c.2 = .ok v := by
    intro c hc
    obtain ⟨c1, c2⟩ := c
    have hb := (imgproc.coords_mem img.width img.height c1 c2).mp hc
    exact ⟨(0, 0, 0), imgproc.pixelRGB_zero_kernel img c1 c2 hb.1 hb.2⟩
  obtain ⟨d', hd'⟩ := imgproc.convPure_all_ok img (.static [[imgproc.Cell.num 0]]) 0
    (imgproc.coords img.width img.height)
    (List.replicate (img.width * img.height * 4) 0) hall
  have hconv : (imgproc.convolution img (.static [[imgproc.Cell.num 0]]) (some 1) env).1 =
      .ok ⟨img.width, img.height, d'⟩ := by
    rw [imgproc.convolution_fst]
    rw [imgproc.convGo_fst img _ (.static [[imgproc.Cell.num 0]]) _ _
      (.static [[imgproc.Cell.num 0]]) (fun a => rfl)]
    rw [show imgproc.effSize (.static [[imgproc.Cell.num 0]]) (some 1) / 2 = 0 from rfl]
    rw [hd']
    rfl
  obtain ⟨r, g, b, hrgb, h0, h1, h2, h3⟩ :=
    imgproc.convolution_ok_pixel img (.static [[imgproc.Cell.num 0]]) (some 1) env
      ⟨img.width, img.height, d'⟩ x y hconv hx hy
  rw [show imgproc.effSize (.static [[imgproc.Cell.num 0]]) (some 1) / 2 = 0 from rfl] at hrgb
  rw [imgproc.pixelRGB_zero_kernel img x y hx hy] at hrgb
  obtain ⟨hr, hg, hb2⟩ : r = 0 ∧ g = 0 ∧ b = 0 := by
    cases hrgb
    exact ⟨rfl, rfl, rfl⟩
  subst hr
  subst hg
  subst hb2
  exact ⟨⟨img.width, img.height, d'⟩, hconv, h0, h1, h2, h3⟩

/-- C4 amended witness: the amended statement at a concrete 1×1 image. -/
theorem C4_degenerate_kernel_amended_witness :
    ∃ out, (imgproc.convolution ⟨1, 1, [10, 20, 30, 255]⟩
        (.static [[imgproc.Cell.num 0]]) (some 1) imgproc.envEmpty).1 = .ok out ∧
      out.data.getD (imgproc.getPixelLocation ⟨1, 1, [10, 20, 30, 255]⟩ 0 0) 0 = 0 ∧
      out.data.getD (imgproc.getPixelLocation ⟨1, 1, [10, 20, 30, 255]⟩ 0 0 + 1) 0 = 0 ∧
      out.data.getD (imgproc.getPixelLocation ⟨1, 1, [10, 20, 30, 255]⟩ 0 0 + 2) 0 = 0 ∧
      out.data.getD (imgproc.getPixelLocation ⟨1, 1, [10, 20, 30, 255]⟩ 0 0 + 3) 0 = 255 :=
  C4_degenerate_kernel_amended ⟨1, 1, [10, 20, 30, 255]⟩ imgproc.envEmpty 0 0
    (by decide) (by decide)

namespace imgproc

theorem floorAvg_some (a b : ℤ) (hb : b ≠ 0) :
    floorAvg (some a) (some b) = .fin ⌊(a : ℚ) / (b : ℚ)⌋ := by
  simp [floorAvg, hb, jsFloorDiv_eq_floor a b hb]

end imgproc

/-- C7: at every output coordinate of a successful run, the stored alpha byte
is the literal 255 regardless of the source neighborhood, and each stored
color byte is the clamped store of the floor (truncation, not rounding) of
that channel's accumulated weighted sum divided by its kernel-weight sum. -/
theorem C7_alpha_and_truncation (img : imgproc.ImageData) (ks : imgproc.KernelSource)
    (size? : Option ℕ) (env : imgproc.Env) (out : imgproc.ImageData) (x y : ℕ)
    (kernel : imgproc.Grid) (asum ksum : imgproc.Pixel) (sr sg sb kr kg kb : ℤ)
    (h : (imgproc.convolution img ks size? env).1 = .ok out)
    (hx : x < img.width) (hy : y < img.height)
    (hk : imgproc.kernelAt ks (imgproc.mkArea img x y (imgproc.effSize ks size? / 2)) =
      .ok kernel)
    (hacc : imgproc.accumAll (imgproc.mkArea img x y (imgproc.effSize ks size? / 2)).pixels
      kernel = .ok (asum, ksum))
    (hsr : asum.r = some sr) (hsg : asum.g = some sg) (hsb : asum.b = some sb)
    (hkr : ksum.r = some kr) (hkg : ksum.g = some kg) (hkb : ksum.b = some kb)
    (hkr0 : kr ≠ 0) (hkg0 : kg ≠ 0) (hkb0 : kb ≠ 0) :
    out.data.getD (imgproc.getPixelLocation img x y + 3) 0 = 255 ∧
    out.data.getD (imgproc.getPixelLocation img x y) 0 =
      imgproc.clampByte (.fin ⌊(sr : ℚ) / (kr : ℚ)⌋) ∧
    out.data.getD (imgproc.getPixelLocation img x y + 1) 0 =
      imgproc.clampByte (.fin ⌊(sg : ℚ) / (kg : ℚ)⌋) ∧
    out.data.getD (imgproc.getPixelLocation img x y + 2) 0 =
      imgproc.clampByte (.fin ⌊(sb : ℚ) / (kb : ℚ)⌋) := by
  obtain ⟨r, g, b, hrgb, h0, h1, h2, h3⟩ :=
    imgproc.convolution_ok_pixel img ks size? env out x y h hx hy
  have hpx : imgproc.pixelRGB img ks (imgproc.effSize ks size? / 2) x y =
      .ok (imgproc.clampByte (imgproc.floorAvg asum.r ksum.r),
        imgproc.clampByte (imgproc.floorAvg asum.g ksum.g),
        imgproc.clampByte (imgproc.floorAvg asum.b ksum.b)) := by
    simp only [imgproc.pixelRGB, hk, hacc]
  rw [hpx] at hrgb
  obtain ⟨hr, hg, hb⟩ : imgproc.clampByte (imgproc.floorAvg asum.r ksum.r) = r ∧
      imgproc.clampByte (imgproc.floorAvg asum.g ksum.g) = g ∧
      imgproc.clampByte (imgproc.floorAvg asum.b ksum.b) = b := by
    cases hrgb
    exact ⟨rfl, rfl, rfl⟩
  refine ⟨h3, ?_, ?_, ?_⟩
  · rw [h0, ← hr, hsr, hkr, imgproc.floorAvg_some sr kr hkr0]
  · rw [h1, ← hg, hsg, hkg, imgproc.floorAvg_some sg kg hkg0]
  · rw [h2, ← hb, hsb, hkb, imgproc.floorAvg_some sb kb hkb0]

/-- C7 witness: a concrete 2×1 image with a uniform 1×2 Pixel kernel at size 3;
the red quotient 35/2 is floored to 17 (rounding would store 18) and alpha is
forced to 255. -/
theorem C7_alpha_and_truncation_witness :
    (imgproc.ImageData.mk 2 1 [17, 0, 0, 255, 17, 0, 0, 255]).data.getD
      (imgproc.getPixelLocation ⟨2, 1, [10,0,0,255, 25,0,0,255]⟩ 0 0 + 3) 0 = 255 ∧
    (imgproc.ImageData.mk 2 1 [17, 0, 0, 255, 17, 0, 0, 255]).data.getD
      (imgproc.getPixelLocation ⟨2, 1, [10,0,0,255, 25,0,0,255]⟩ 0 0) 0 =
      imgproc.clampByte (.fin ⌊(35 : ℚ) / ((2 : ℤ) : ℚ)⌋) ∧
    (imgproc.ImageData.mk 2 1 [17, 0, 0, 255, 17, 0, 0, 255]).data.getD
      (imgproc.getPixelLocation ⟨2, 1, [10,0,0,255, 25,0,0,255]⟩ 0 0 + 1) 0 =
      imgproc.clampByte (.fin ⌊(0 : ℚ) / ((2 : ℤ) : ℚ)⌋) ∧
    (imgproc.ImageData.mk 2 1 [17, 0, 0, 255, 17, 0, 0, 255]).data.getD
      (imgproc.getPixelLocation ⟨2, 1, [10,0,0,255, 25,0,0,255]⟩ 0 0 + 2) 0 =
      imgproc.clampByte (.fin ⌊(0 : ℚ) / ((2 : ℤ) : ℚ)⌋) := by
  have h := C7_alpha_and_truncation ⟨2, 1, [10,0,0,255, 25,0,0,255]⟩
    (.static [[.px (imgproc.Pixel.mk1 1), .px (imgproc.Pixel.mk1 1)]]) (some 3)
    imgproc.envEmpty ⟨2, 1, [17, 0, 0, 255, 17, 0, 0, 255]⟩ 0 0
    [[.px (imgproc.Pixel.mk1 1), .px (imgproc.Pixel.mk1 1)]]
    ⟨some 35, some 0, some 0, some 255⟩ ⟨some 2, some 2, some 2, some 255⟩
    35 0 0 2 2 2 rfl (by decide) (by decide) rfl rfl rfl rfl rfl rfl rfl rfl
    (by decide) (by decide) (by decide)
  exact h

namespace imgproc

theorem floorAvg_some_fin (a b : ℤ) (hb : b ≠ 0) :
    floorAvg (some a) (some b) = .fin (jsFloorDiv a b) := by
  simp [floorAvg, hb]

theorem accumCols_uniform (w : Pixel) (wr wg wb : ℤ)
    (hwr : w.r = some wr) (hwg : w.g = some wg) (hwb : w.b = some wb) :
    ∀ (row : List Pixel),
      (∀ p ∈ row, p.r ≠ none ∧ p.g ≠ none ∧ p.b ≠ none) →
      ∀ (ar ag ab kr kg kb : ℤ) (sa ka : Option ℤ),
      accumCols row.length row (row.map fun _ => Cell.px w)
        (⟨some ar, some ag, some ab, sa⟩, ⟨some kr, some kg, some kb, ka⟩) =
      .ok (⟨some (ar + (row.map fun p => p.r.getD 0).sum * wr),
            some (ag + (row.map fun p => p.g.getD 0).sum * wg),
            some (ab + (row.map fun p => p.b.getD 0).sum * wb), sa⟩,
           ⟨some (kr + row.length * wr), some (kg + row.length * wg),
            some (kb + row.length * wb), ka⟩) := by
  intro row
  induction row with
  | nil =>
    intro _ ar ag ab kr kg kb sa ka
    simp [accumCols]
  | cons p ps ih =>
    intro hsome ar ag ab kr kg kb sa ka
    obtain ⟨hpr, hpg, hpb⟩ := hsome p (List.mem_cons_self _ _)
    obtain ⟨pr, hpr⟩ := Option.ne_none_iff_exists'.mp hpr
    obtain ⟨pg, hpg⟩ := Option.ne_none_iff_exists'.mp hpg
    obtain ⟨pb, hpb⟩ := Option.ne_none_iff_exists'.mp hpb
    have hstep : accumStep
        (⟨some ar, some ag, some ab, sa⟩, ⟨some kr, some kg, some kb, ka⟩) p (Cell.px w) =
        (⟨some (ar + pr * wr), some (ag + pg * wg), some (ab + pb * wb), sa⟩,
         ⟨some (kr + wr), some (kg + wg), some (kb + wb), ka⟩) := by
      simp [accumStep, Cell.chanR, Cell.chanG, Cell.chanB, hwr, hwg, hwb,
        hpr, hpg, hpb, oadd, omul]
    show accumCols (ps.length + 1) (p :: ps) (Cell.px w :: ps.map fun _ => Cell.px w) _ = _
    rw [accumCols, hstep, ih (fun q hq => hsome q (List.mem_cons_of_mem _ hq))]
    simp only [Except.ok.injEq, Prod.mk.injEq, Pixel.mk.injEq, Option.some.injEq,
      List.map_cons, List.sum_cons, List.length_cons, hpr, hpg, hpb, Option.getD_some]
    and_intros <;> (try push_cast) <;> (try ring)

theorem accumRows_uniform (w : Pixel) (wr wg wb : ℤ)
    (hwr : w.r = some wr) (hwg : w.g = some wg) (hwb : w.b = some wb) :
    ∀ (rows : List (List Pixel)) (ni : ℕ),
      (∀ row ∈ rows, row.length = ni) →
      (∀ row ∈ rows, ∀ p ∈ row, p.r ≠ none ∧ p.g ≠ none ∧ p.b ≠ none) →
      ∀ (ar ag ab kr kg kb : ℤ) (sa ka : Option ℤ),
      accumRows ni rows (rows.map fun row => row.map fun _ => Cell.px w)
        (⟨some ar, some ag, some ab, sa⟩, ⟨some kr, some kg, some kb, ka⟩) =
      .ok (⟨some (ar + (rows.flatten.map fun p => p.r.getD 0).sum * wr),
            some (ag + (rows.flatten.map fun p => p.g.getD 0).sum * wg),
            some (ab + (rows.flatten.map fun p => p.b.getD 0).sum * wb), sa⟩,
           ⟨some (kr + rows.flatten.length * wr), some (kg + rows.flatten.length * wg),
            some (kb + rows.flatten.length * wb), ka⟩) := by
  intro rows
  induction rows with
  | nil =>
    intro ni _ _ ar ag ab kr kg kb sa ka
    simp [accumRows]
  | cons row rest ih =>
    intro ni hlen hsome ar ag ab kr kg kb sa ka
    have hrl : row.length = ni := hlen row (List.mem_cons_self _ _)
    have hcols := accumCols_uniform w wr wg wb hwr hwg hwb row
      (hsome row (List.mem_cons_self _ _)) ar ag ab kr kg kb sa ka
    rw [hrl] at hcols
    show accumRows ni (row :: rest) ((row.map fun _ => Cell.px w) ::
      rest.map fun r => r.map fun _ => Cell.px w) _ = _
    rw [accumRows]
    simp only [hcols]
    rw [ih ni (fun r hr => hlen r (List.mem_cons_of_mem _ hr))
      (fun r hr => hsome r (List.mem_cons_of_mem _ hr))]
    simp only [Except.ok.injEq, Prod.mk.injEq, Pixel.mk.injEq, Option.some.injEq,
      List.flatten_cons, List.map_append, List.sum_append, List.length_append, hrl]
    and_intros <;> (try push_cast) <;> (try ring)

end imgproc

namespace imgproc

theorem mkArea_corner (img : ImageData) (half : ℕ) (hW : 0 < img.width) (hH : 0 < img.height) :
    (mkArea img 0 0 half).pixels =
      (List.range (min (half + 1) img.height)).map fun (j : ℕ) =>
        (List.range (min (half + 1) img.width)).map fun (i : ℕ) =>
          getPixel img i j := by
  have hl : (mkArea img 0 0 half).left = 0 := by rw [mkArea_left]; push_cast; omega
  have ht : (mkArea img 0 0 half).top = 0 := by rw [mkArea_top]; push_cast; omega
  have hr : (mkArea img 0 0 half).right = min (half : ℤ) ((img.width : ℤ) - 1) := by
    rw [mkArea_right]; push_cast; omega
  have hb : (mkArea img 0 0 half).bottom = min (half : ℤ) ((img.height : ℤ) - 1) := by
    rw [mkArea_bottom]; push_cast; omega
  rw [mkArea_pixels_shape, hl, ht, hr, hb]
  have e1 : (min (half : ℤ) ((img.height : ℤ) - 1) - 0 + 1).toNat = min (half + 1) img.height := by
    omega
  have e2 : (min (half : ℤ) ((img.width : ℤ) - 1) - 0 + 1).toNat = min (half + 1) img.width := by
    omega
  rw [e1, e2]
  apply List.map_congr_left
  intro j _
  apply List.map_congr_left
  intro i _
  have e3 : ((0 : ℤ) + (i : ℤ)).toNat = i := by omega
  have e4 : ((0 : ℤ) + (j : ℤ)).toNat = j := by omega
  rw [e3, e4]

theorem kernelAt_uniformGen (w : Pixel) (a : Area) (row0 : List Pixel) (p0 : Pixel)
    (h0 : a.pixels.head? = some row0) (h1 : row0.head? = some p0) :
    kernelAt (uniformGen w) a = .ok (a.pixels.map fun row => row.map fun _ => Cell.px w) := by
  show promoteGrid _ = _
  have hh : (a.pixels.map fun row => row.map fun _ => Cell.px w).head? =
      some (row0.map fun _ => Cell.px w) := by
    rw [List.head?_map, h0]
    rfl
  have hc : (row0.map fun _ => Cell.px w).head? = some (Cell.px w) := by
    rw [List.head?_map, h1]
    rfl
  simp only [promoteGrid, hh, hc]

theorem flatten_length_eval {α : Type} (nr nc : ℕ) (g : ℕ → ℕ → α) :
    ((List.range nr).map fun (j : ℕ) =>
      (List.range nc).map fun (i : ℕ) => g i j).flatten.length = nr * nc := by
  rw [List.length_flatten, List.map_map]
  have : (List.length ∘ fun (j : ℕ) => (List.range nc).map fun (i : ℕ) => g i j) =
      fun (_ : ℕ) => nc := by
    funext j
    simp
  rw [this]
  induction nr with
  | zero => simp
  | succ k ih =>
    rw [List.range_succ, List.map_append, List.sum_append]
    simp [ih]
    ring

theorem flatten_sum_eval {α : Type} [AddCommMonoid α] (nr nc : ℕ) (g : ℕ → ℕ → α) :
    (((List.range nr).map fun (j : ℕ) =>
      (List.range nc).map fun (i : ℕ) => g i j).flatten).sum =
      ((List.range nr).map fun (j : ℕ) =>
        ((List.range nc).map fun (i : ℕ) => g i j).sum).sum := by
  rw [List.sum_flatten, List.map_map]
  rfl

end imgproc

namespace imgproc

theorem flatten_pixel_sum (img : ImageData) (nr nc off : ℕ) (sel : Pixel → Option ℤ)
    (hsel : ∀ x y : ℕ, sel (getPixel img x y) =
      some ((img.data.getD ((y * img.width + x) * 4 + off) 0 : ℕ) : ℤ)) :
    (((List.range nr).map fun (j : ℕ) =>
        (List.range nc).map fun (i : ℕ) => getPixel img i j).flatten.map
      fun p => (sel p).getD 0).sum = ((cornerSum img nr nc off : ℕ) : ℤ) := by
  rw [List.map_flatten, List.map_map, List.sum_flatten, List.map_map]
  unfold cornerSum
  rw [Nat.cast_list_sum, List.map_map]
  congr 1
  apply List.map_congr_left
  intro j _
  simp only [Function.comp]
  rw [List.map_map, Nat.cast_list_sum, List.map_map]
  congr 1
  apply List.map_congr_left
  intro i _
  simp only [Function.comp]
  rw [hsel i j]
  rfl

theorem getD_le_255 (img : ImageData) (hbytes : ∀ v ∈ img.data, v ≤ 255) (idx : ℕ) :
    img.data.getD idx 0 ≤ 255 := by
  rw [List.getD_eq_getElem?_getD]
  cases h : img.data[idx]? with
  | none => simp
  | some v =>
    simp only [Option.getD_some]
    exact hbytes v (List.getElem?_mem h)

theorem cornerSum_le (img : ImageData) (nr nc off : ℕ)
    (hbytes : ∀ v ∈ img.data, v ≤ 255) :
    cornerSum img nr nc off ≤ nr * nc * 255 := by
  unfold cornerSum
  have hrow : ∀ j : ℕ, ((List.range nc).map fun (i : ℕ) =>
      img.data.getD ((j * img.width + i) * 4 + off) 0).sum ≤ nc * 255 := by
    intro j
    have := List.sum_le_card_nsmul ((List.range nc).map fun (i : ℕ) =>
      img.data.getD ((j * img.width + i) * 4 + off) 0) 255 (by
        intro v hv
        simp only [List.mem_map, List.mem_range] at hv
        obtain ⟨i, _, hvi⟩ := hv
        rw [← hvi]
        exact getD_le_255 img hbytes _)
    simpa [smul_eq_mul] using this
  have houter := List.sum_le_card_nsmul ((List.range nr).map fun (j : ℕ) =>
    ((List.range nc).map fun (i : ℕ) =>
      img.data.getD ((j * img.width + i) * 4 + off) 0).sum) (nc * 255) (by
        intro v hv
        simp only [List.mem_map, List.mem_range] at hv
        obtain ⟨j, _, hvj⟩ := hv
        rw [← hvj]
        exact hrow j)
  simp only [List.length_map, List.length_range, smul_eq_mul] at houter
  calc _ ≤ nr * (nc * 255) := houter
    _ = nr * nc * 255 := by ring

theorem clampByte_natCast (n : ℕ) (h : n ≤ 255) : clampByte (.fin (n : ℤ)) = n := by
  simp only [clampByte]
  split_ifs <;> omega

end imgproc

namespace imgproc

theorem pixelRGB_uniform_corner (img : ImageData) (w : Pixel) (wr wg wb : ℤ)
    (hwr : w.r = some wr) (hwg : w.g = some wg) (hwb : w.b = some wb)
    (hW : 0 < img.width) (hH : 0 < img.height)
    (hbytes : ∀ v ∈ img.data, v ≤ 255)
    (hwr0 : wr ≠ 0) (hwg0 : wg ≠ 0) (hwb0 : wb ≠ 0) (half : ℕ) :
    pixelRGB img (uniformGen w) half 0 0 =
      .ok (cornerSum img (min (half + 1) img.height) (min (half + 1) img.width) 0 /
             (min (half + 1) img.height * min (half + 1) img.width),
           cornerSum img (min (half + 1) img.height) (min (half + 1) img.width) 1 /
             (min (half + 1) img.height * min (half + 1) img.width),
           cornerSum img (min (half + 1) img.height) (min (half + 1) img.width) 2 /
             (min (half + 1) img.height * min (half + 1) img.width)) := by
  have hpix := mkArea_corner img half hW hH
  have hnr0 : 0 < min (half + 1) img.height := by omega
  have hnc0 : 0 < min (half + 1) img.width := by omega
  obtain ⟨nr, hnr⟩ : ∃ k, min (half + 1) img.height = k + 1 :=
    ⟨min (half + 1) img.height - 1, by omega⟩
  obtain ⟨nc, hnc⟩ : ∃ k, min (half + 1) img.width = k + 1 :=
    ⟨min (half + 1) img.width - 1, by omega⟩
  have hhead : (mkArea img 0 0 half).pixels.head? =
      some ((List.range (min (half + 1) img.width)).map fun (i : ℕ) => getPixel img i 0) := by
    rw [hpix, hnr, List.range_succ_eq_map, List.map_cons]
    rfl
  have hrow0 : ((List.range (min (half + 1) img.width)).map
      fun (i : ℕ) => getPixel img i 0).head? = some (getPixel img 0 0) := by
    rw [hnc, List.range_succ_eq_map, List.map_cons]
    rfl
  have hk := kernelAt_uniformGen w (mkArea img 0 0 half) _ _ hhead hrow0
  have hlenrows : ∀ row ∈ (mkArea img 0 0 half).pixels,
      row.length = min (half + 1) img.width := by
    rw [hpix]
    intro row hrow
    simp only [List.mem_map, List.mem_range] at hrow
    obtain ⟨j, _, hrj⟩ := hrow
    rw [← hrj]
    simp
  have hsome : ∀ row ∈ (mkArea img 0 0 half).pixels, ∀ p ∈ row,
      p.r ≠ none ∧ p.g ≠ none ∧ p.b ≠ none := by
    rw [hpix]
    intro row hrow p hp
    simp only [List.mem_map, List.mem_range] at hrow
    obtain ⟨j, _, hrj⟩ := hrow
    rw [← hrj] at hp
    simp only [List.mem_map, List.mem_range] at hp
    obtain ⟨i, _, hpi⟩ := hp
    rw [← hpi]
    simp [getPixel]
  have hFL : (mkArea img 0 0 half).pixels.flatten.length =
      min (half + 1) img.height * min (half + 1) img.width := by
    rw [hpix]
    exact flatten_length_eval _ _ _
  have hFSr : ((mkArea img 0 0 half).pixels.flatten.map fun p => p.r.getD 0).sum =
      ((cornerSum img (min (half + 1) img.height) (min (half + 1) img.width) 0 : ℕ) : ℤ) := by
    rw [hpix]
    exact flatten_pixel_sum img _ _ 0 Pixel.r (fun x y => by
      simp [getPixel, getPixelLocation])
  have hFSg : ((mkArea img 0 0 half).pixels.flatten.map fun p => p.g.getD 0).sum =
      ((cornerSum img (min (half + 1) img.height) (min (half + 1) img.width) 1 : ℕ) : ℤ) := by
    rw [hpix]
    exact flatten_pixel_sum img _ _ 1 Pixel.g (fun x y => by
      simp [getPixel, getPixelLocation])
  have hFSb : ((mkArea img 0 0 half).pixels.flatten.map fun p => p.b.getD 0).sum =
      ((cornerSum img (min (half + 1) img.height) (min (half + 1) img.width) 2 : ℕ) : ℤ) := by
    rw [hpix]
    exact flatten_pixel_sum img _ _ 2 Pixel.b (fun x y => by
      simp [getPixel, getPixelLocation])
  have haccval : accumAll (mkArea img 0 0 half).pixels
      ((mkArea img 0 0 half).pixels.map fun row => row.map fun _ => Cell.px w) =
      .ok (⟨some (((cornerSum img (min (half + 1) img.height) (min (half + 1) img.width) 0 :
              ℕ) : ℤ) * wr),
            some (((cornerSum img (min (half + 1) img.height) (min (half + 1) img.width) 1 :
              ℕ) : ℤ) * wg),
            some (((cornerSum img (min (half + 1) img.height) (min (half + 1) img.width) 2 :
              ℕ) : ℤ) * wb), some 255⟩,
           ⟨some (((min (half + 1) img.height * min (half + 1) img.width : ℕ) : ℤ) * wr),
            some (((min (half + 1) img.height * min (half + 1) img.width : ℕ) : ℤ) * wg),
            some (((min (half + 1) img.height * min (half + 1) img.width : ℕ) : ℤ) * wb),
            some 255⟩) := by
    unfold accumAll
    rw [hhead]
    simp only [List.length_map, List.length_range]
    rw [show ((Pixel.mk0, Pixel.mk0) : Pixel × Pixel) =
      (⟨some 0, some 0, some 0, some 255⟩, ⟨some 0, some 0, some 0, some 255⟩) from rfl]
    rw [accumRows_uniform w wr wg wb hwr hwg hwb (mkArea img 0 0 half).pixels
      (min (half + 1) img.width) hlenrows hsome 0 0 0 0 0 0 (some 255) (some 255)]
    rw [hFL, hFSr, hFSg, hFSb]
    simp only [zero_add]
  have hNneZ : ((min (half + 1) img.height * min (half + 1) img.width : ℕ) : ℤ) ≠ 0 := by
    have h9 : min (half + 1) img.height * min (half + 1) img.width ≠ 0 :=
      Nat.mul_ne_zero (by omega) (by omega)
    exact_mod_cast h9
  have hdivle : ∀ off, cornerSum img (min (half + 1) img.height) (min (half + 1) img.width) off /
      (min (half + 1) img.height * min (half + 1) img.width) ≤ 255 := by
    intro off
    exact Nat.div_le_of_le_mul (cornerSum_le img _ _ off hbytes)
  simp only [pixelRGB, hk, haccval]
  rw [floorAvg_some_fin _ _ (mul_ne_zero hNneZ hwr0),
    floorAvg_some_fin _ _ (mul_ne_zero hNneZ hwg0),
    floorAvg_some_fin _ _ (mul_ne_zero hNneZ hwb0),
    jsFloorDiv_mul_right _ _ _ hNneZ hwr0,
    jsFloorDiv_mul_right _ _ _ hNneZ hwg0,
    jsFloorDiv_mul_right _ _ _ hNneZ hwb0,
    jsFloorDiv_natCast, jsFloorDiv_natCast, jsFloorDiv_natCast,
    clampByte_natCast _ (hdivle 0), clampByte_natCast _ (hdivle 1),
    clampByte_natCast _ (hdivle 2)]

end imgproc

/-- C3: for any input and a uniform per-channel kernel generated to match the
clamped neighborhood's shape, the corner output pixel (0,0) of a successful
run stores, per color channel, the floored arithmetic mean of only the
in-bounds neighborhood bytes: the denominator is the actual number of pixels
(and weights) used, not the full kernel area. -/
theorem C3_edge_normalization (img : imgproc.ImageData) (wr wg wb : ℤ) (wa : Option ℤ)
    (size? : Option ℕ) (env : imgproc.Env) (out : imgproc.ImageData) (half : ℕ)
    (hW : 0 < img.width) (hH : 0 < img.height)
    (hbytes : ∀ v ∈ img.data, v ≤ 255)
    (hwr : wr ≠ 0) (hwg : wg ≠ 0) (hwb : wb ≠ 0)
    (hhalf : imgproc.effSize (imgproc.uniformGen ⟨some wr, some wg, some wb, wa⟩) size? / 2
      = half)
    (h : (imgproc.convolution img (imgproc.uniformGen ⟨some wr, some wg, some wb, wa⟩)
      size? env).1 = .ok out) :
    out.data.getD 0 0 =
      imgproc.cornerSum img (min (half + 1) img.height) (min (half + 1) img.width) 0 /
        (min (half + 1) img.height * min (half + 1) img.width) ∧
    out.data.getD 1 0 =
      imgproc.cornerSum img (min (half + 1) img.height) (min (half + 1) img.width) 1 /
        (min (half + 1) img.height * min (half + 1) img.width) ∧
    out.data.getD 2 0 =
      imgproc.cornerSum img (min (half + 1) img.height) (min (half + 1) img.width) 2 /
        (min (half + 1) img.height * min (half + 1) img.width) := by
  obtain ⟨r, g, b, hrgb, h0, h1, h2, h3⟩ :=
    imgproc.convolution_ok_pixel img
      (imgproc.uniformGen ⟨some wr, some wg, some wb, wa⟩) size? env out 0 0 h hW hH
  rw [hhalf] at hrgb
  rw [imgproc.pixelRGB_uniform_corner img ⟨some wr, some wg, some wb, wa⟩ wr wg wb
    rfl rfl rfl hW hH hbytes hwr hwg hwb half] at hrgb
  obtain ⟨hr, hg, hb⟩ :
      imgproc.cornerSum img (min (half + 1) img.height) (min (half + 1) img.width) 0 /
        (min (half + 1) img.height * min (half + 1) img.width) = r ∧
      imgproc.cornerSum img (min (half + 1) img.height) (min (half + 1) img.width) 1 /
        (min (half + 1) img.height * min (half + 1) img.width) = g ∧
      imgproc.cornerSum img (min (half + 1) img.height) (min (half + 1) img.width) 2 /
        (min (half + 1) img.height * min (half + 1) img.width) = b := by
    cases hrgb
    exact ⟨rfl, rfl, rfl⟩
  have hloc : imgproc.getPixelLocation img 0 0 = 0 := by
    simp [imgproc.getPixelLocation]
  rw [hloc] at h0 h1 h2
  rw [show (0 : ℕ) + 1 = 1 from rfl] at h1
  rw [show (0 : ℕ) + 2 = 2 from rfl] at h2
  exact ⟨by rw [h0, ← hr], by rw [h1, ← hg], by rw [h2, ← hb]⟩

/-- C3 witness: the concrete 3×3 image of C2 with the uniform all-ones
generated kernel at size 3: the corner red value is the mean of the four
in-bounds reds, floor((10+20+40+50)/4) = 30 — not 450/9. -/
theorem C3_edge_normalization_witness :
    (imgproc.ImageData.mk 3 3
        [30,0,0,255, 35,0,0,255, 40,0,0,255, 45,0,0,255, 50,0,0,255, 55,0,0,255,
         60,0,0,255, 65,0,0,255, 70,0,0,255]).data.getD 0 0 =
      imgproc.cornerSum imgproc.imgC2 (min 2 imgproc.imgC2.height)
          (min 2 imgproc.imgC2.width) 0 /
        (min 2 imgproc.imgC2.height * min 2 imgproc.imgC2.width) ∧
    (imgproc.ImageData.mk 3 3
        [30,0,0,255, 35,0,0,255, 40,0,0,255, 45,0,0,255, 50,0,0,255, 55,0,0,255,
         60,0,0,255, 65,0,0,255, 70,0,0,255]).data.getD 1 0 =
      imgproc.cornerSum imgproc.imgC2 (min 2 imgproc.imgC2.height)
          (min 2 imgproc.imgC2.width) 1 /
        (min 2 imgproc.imgC2.height * min 2 imgproc.imgC2.width) ∧
    (imgproc.ImageData.mk 3 3
        [30,0,0,255, 35,0,0,255, 40,0,0,255, 45,0,0,255, 50,0,0,255, 55,0,0,255,
         60,0,0,255, 65,0,0,255, 70,0,0,255]).data.getD 2 0 =
      imgproc.cornerSum imgproc.imgC2 (min 2 imgproc.imgC2.height)
          (min 2 imgproc.imgC2.width) 2 /
        (min 2 imgproc.imgC2.height * min 2 imgproc.imgC2.width) :=
  C3_edge_normalization imgproc.imgC2 1 1 1 (some 255) (some 3) imgproc.envEmpty
    ⟨3, 3, [30,0,0,255, 35,0,0,255, 40,0,0,255, 45,0,0,255, 50,0,0,255, 55,0,0,255,
            60,0,0,255, 65,0,0,255, 70,0,0,255]⟩ 1
    (by decide) (by decide) (by decide) (by decide) (by decide) (by decide) rfl rfl
